import Mathlib

/-!
# libsnark `common/field_utils` : a shallow embedding and its properties

The C++ templates of `src/common/field_utils.tcc` are parametric in a field
type `FieldT`.  Here `FieldT` is any type `F` carrying Mathlib's `Field`
structure (with decidable equality, for `is_zero` and `==`); the static
constants of the field type are a record `FieldT_consts F`.  The routines that
go through `bigint` (packing, bit decomposition) need a prime field; for those
`FieldT` is `ZMod p`.

Conventions of the embedding
* `assert` is fatal: a routine that can hit one returns an `Option`, and `none`
  stands for "no value is returned" (failed assertion, or an operation that has
  no defined result in C++ such as a division by zero).
* `std::vector<T>` is `List T`, `bit_vector` is `List Bool`, `size_t` values are
  `Nat`.  Index arithmetic (`i * chunk_bits + j`, `v.size() * w`) is done in
  `Nat`: these quantities are bounded by the number of bits held in memory and
  cannot wrap.  Where the width of a machine type decides the outcome (the
  `unsigned int` literal `1u`, the limbs of a `bigint`, `unsigned long`
  exponents) the width is explicit.
-/

namespace libsnark

/-! ## Machine parameters -/

/-- Modelled from the spec: the limb width of the Big-Integer Capability
("word width is a deployment-defined constant, e.g. 32 or 64 bits"); the GMP
header that defines the constant is not part of `src/`.  The 64-bit deployment
is taken. -/
def GMP_NUMB_BITS : Nat := 64

/-- Width in bits of the C++ type `unsigned int`, the type of the literal `1u`. -/
def UINT_BITS : Nat := 32

/-- Width in bits of the C++ type `size_t`, the machine word. -/
def SIZE_T_BITS : Nat := 64

/-- Width in bits of the C++ type `unsigned long`; it fits one limb. -/
def ULONG_BITS : Nat := 64

/-- The type `bit_vector` (`std::vector<bool>`). -/
abbrev bit_vector := List Bool

/-! ## The Big-Integer Capability -/

/-- Modelled from the spec: the Big-Integer Capability `bigint<n>`
(`algebra/fields/bigint.hpp`, not part of `src/`): "a fixed `numLimbs`-word
representation", least significant limb first.  The limb count `n` is the
length of `data`. -/
structure bigint where
  data : List Nat
deriving DecidableEq, Repr

namespace bigint

/-- Modelled from the spec: the default-constructed `bigint<n>` (all limbs
zero), missing from `src/` with the rest of `bigint.hpp`. -/
def zero (n : Nat) : bigint := ⟨List.replicate n 0⟩

/-- Modelled from the spec: `bigint<1>(x)` for an `unsigned long x`, the
"single-limb representation"; missing from `src/` with `bigint.hpp`. -/
def of_ulong (x : Nat) : bigint := ⟨[x % 2 ^ GMP_NUMB_BITS]⟩

/-- Modelled from the spec: `maxBits()`, the capacity `n * GMP_NUMB_BITS` of a
`bigint<n>`; missing from `src/` with `bigint.hpp`. -/
def max_bits (b : bigint) : Nat := b.data.length * GMP_NUMB_BITS

/-- Modelled from the spec: `testBit(i)`, bit `i` of the stored integer, false
at and beyond the capacity; missing from `src/` with `bigint.hpp`. -/
def test_bit (b : bigint) (bitno : Nat) : Bool :=
  if bitno ≥ b.data.length * GMP_NUMB_BITS then false
  else
    let part := bitno / GMP_NUMB_BITS
    let bit := bitno - GMP_NUMB_BITS * part
    (b.data.getD part 0).testBit bit

/-- The integer a limb sequence stands for: `Σ data[k] * 2^(GMP_NUMB_BITS * k)`. -/
def limbs_to_nat : List Nat → Nat
  | [] => 0
  | limb :: rest => limb + 2 ^ GMP_NUMB_BITS * limbs_to_nat rest

/-- The integer a `bigint` stands for. -/
def to_nat (b : bigint) : Nat := limbs_to_nat b.data

/-- Every limb is a machine word (`mp_limb_t`). -/
def wf (b : bigint) : Prop := ∀ limb ∈ b.data, limb < 2 ^ GMP_NUMB_BITS

instance (b : bigint) : Decidable b.wf := by
  unfold wf; infer_instance

/-- The `n`-limb representation of the integer `x` (its low `n * GMP_NUMB_BITS`
bits). -/
def of_nat (n : Nat) (x : Nat) : bigint :=
  ⟨(List.range n).map (fun k => (x / 2 ^ (GMP_NUMB_BITS * k)) % 2 ^ GMP_NUMB_BITS)⟩

/-- The statement `b.data[idx] |= x` on a C array of `n` limbs.  An index outside
the array has no defined result. -/
def or_limb (b : bigint) (idx x : Nat) : Option bigint :=
  if idx < b.data.length then
    some ⟨b.data.set idx ((b.data.getD idx 0 ||| x) % 2 ^ GMP_NUMB_BITS)⟩
  else none

end bigint

/-! ## The Field Capability -/

/-- Modelled from the spec: the static constants of the Field Capability
(`numBits`, `numLimbs`, `twoAdicity`, `rootOfUnity`, `sizeInBits()`); the field
classes that declare them are not part of `src/`. -/
structure FieldT_consts (F : Type) where
  num_bits : Nat
  num_limbs : Nat
  s : Nat
  root_of_unity : F
  size_in_bits : Nat

/-- Modelled from the spec: the constructor `FieldT(b)` of a prime field from a
big integer, "converted to its field element"; the field classes are not part
of `src/`. -/
def FieldT_of_bigint (p : Nat) (b : bigint) : ZMod p := (b.to_nat : ZMod p)

/-- Modelled from the spec: `asBigInteger()`, "canonical representative
extraction", into `num_limbs` limbs; the field classes are not part of `src/`. -/
def as_bigint {p : Nat} (C : FieldT_consts (ZMod p)) (el : ZMod p) : bigint :=
  bigint.of_nat C.num_limbs (ZMod.val el)

/-! ## Helpers of `common/utils.hpp` -/

/-- Loop of `log2`: `while (n > 1) { n >>= 1; r++; }`, with fuel. -/
def log2_loop : Nat → Nat → Nat → Nat
  | 0, _, r => r
  | fuel + 1, n, r => if n > 1 then log2_loop fuel (n >>> 1) (r + 1) else r

/-- Modelled from the spec: `log2(n)` of `common/utils`, not part of `src/`; the
spec only fixes `n = 2^logn` on powers of two.  The upstream routine is the
ceiling of the binary logarithm: `r = ((n & (n-1)) == 0 ? 0 : 1)` followed by
the halving loop (the fuel `n` is never exhausted). -/
def log2 (n : Nat) : Nat :=
  log2_loop n n (if n &&& (n - 1) = 0 then 0 else 1)

/-- Modelled from the spec: `div_ceil(x, y)` of `common/utils`, not part of
`src/`: "ceil(x / y)", computed as `(x + (y-1)) / y`.  There is no value for
`y = 0` (integer division by zero). -/
def div_ceil (x y : Nat) : Option Nat :=
  if y = 0 then none else some ((x + (y - 1)) / y)

/-! ## `get_root_of_unity` -/

section generic
variable {F : Type} [Field F] [DecidableEq F]

/-- The expression `1u << logn`: a shift of the 32-bit `unsigned int` value 1.
For `logn < 32` it is `2^logn`; a shift count of 32 or more has no defined
result in C++. -/
def shl_1u (logn : Nat) : Option Nat :=
  if logn < UINT_BITS then some ((1 <<< logn) % 2 ^ UINT_BITS) else none

/-- Loop of `get_root_of_unity`: `for (size_t i = FieldT::s; i > logn; --i)
omega *= omega;`.  The first argument is `i`. -/
def get_root_of_unity_loop (logn : Nat) : Nat → F → F
  | 0, omega => omega
  | i + 1, omega =>
      if i + 1 > logn then get_root_of_unity_loop logn i (omega * omega) else omega

/-- The routine `get_root_of_unity<FieldT>(n)`. -/
def get_root_of_unity (C : FieldT_consts F) (n : Nat) : Option F :=
  let logn := log2 n
  match shl_1u logn with
  | none => none
  | some m =>
      if n ≠ m then none               -- assert(n == (1u << logn))
      else if ¬ logn ≤ C.s then none   -- assert(logn <= FieldT::s)
      else some (get_root_of_unity_loop logn C.s C.root_of_unity)

/-! ## `convert_bit_vector_to_field_element_vector` and its inverse -/

/-- The routine `convert_bit_vector_to_field_element_vector<FieldT>(v)`. -/
def convert_bit_vector_to_field_element_vector (v : bit_vector) : List F :=
  v.map (fun b => if b then (1 : F) else 0)

/-- The routine `convert_field_element_vector_to_bit_vector<FieldT>(v)`; `none`
is the failed assertion `el == one || el == zero`. -/
def convert_field_element_vector_to_bit_vector : List F → Option bit_vector
  | [] => some []
  | el :: rest =>
      if el = 1 ∨ el = 0 then
        match convert_field_element_vector_to_bit_vector rest with
        | none => none
        | some bits => some (decide (el = 1) :: bits)
      else none

/-! ## `convert_bit_vector_to_field_element` -/

/-- Loop of `convert_bit_vector_to_field_element`: `for (bool b : v) { res += b ?
c : FieldT::zero(); c += c; }`.  The state is `(res, c)`. -/
def convert_bit_vector_to_field_element_loop : bit_vector → F × F → F × F
  | [], st => st
  | b :: rest, (res, c) =>
      convert_bit_vector_to_field_element_loop rest (res + (if b then c else 0), c + c)

/-- The routine `convert_bit_vector_to_field_element<FieldT>(v)`; `none` is the
failed assertion `v.size() <= FieldT::num_bits`. -/
def convert_bit_vector_to_field_element (C : FieldT_consts F) (v : bit_vector) : Option F :=
  if v.length ≤ C.num_bits then
    some (convert_bit_vector_to_field_element_loop v (0, 1)).1
  else none

/-! ## `naive_plain_exp` -/

/-- Loop of `naive_plain_exp` over the ranges `[vec_it, vec_end)` and
`[scalar_it, scalar_end)`; returns the result and what is left of the scalar
range.  Reading `*scalar_it` at `scalar_end` has no defined result. -/
def naive_plain_exp_loop {T : Type} [Add T] [HMul T F T] :
    List T → List F → T → Option (T × List F)
  | [], scalars, result => some (result, scalars)
  | _ :: _, [], _ => none
  | g :: vec, x :: scalars, result => naive_plain_exp_loop vec scalars (result + g * x)

/-- The routine `naive_plain_exp<T, FieldT>(neutral, vec, scalars)` with each
iterator pair given as the list it delimits; `none` is the failed assertion
`scalar_it == scalar_end`. -/
def naive_plain_exp {T : Type} [Add T] [HMul T F T]
    (neutral : T) (vec : List T) (scalars : List F) : Option T :=
  match naive_plain_exp_loop vec scalars neutral with
  | some (result, []) => some result
  | _ => none

/-! ## `batch_invert` -/

/-- First loop of `batch_invert`: `for (auto el : vec) { assert(!el.is_zero());
prod.emplace_back(acc); acc = acc * el; }`.  The state is `(prod, acc)`;
`none` is the failed assertion. -/
def batch_invert_forward : List F → List F × F → Option (List F × F)
  | [], st => some st
  | el :: rest, (prod, acc) =>
      if el = 0 then none
      else batch_invert_forward rest (prod ++ [acc], acc * el)

/-- Second loop of `batch_invert`, `for (long i = vec.size()-1; i >= 0; --i)`.
The first argument is `i + 1`; the state is `(vec, acc_inverse)`. -/
def batch_invert_backward (prod : List F) : Nat → List F × F → List F × F
  | 0, st => st
  | i + 1, (vec, acc_inverse) =>
      let old_el := vec.getD i 0
      let vec := vec.set i (acc_inverse * prod.getD i 0)
      let acc_inverse := acc_inverse * old_el
      batch_invert_backward prod i (vec, acc_inverse)

/-- The routine `batch_invert<FieldT>(vec)`: the returned list is the content of
`vec` after the in-place update; `none` when the assertion fails. -/
def batch_invert (vec : List F) : Option (List F) :=
  match batch_invert_forward vec ([], 1) with
  | none => none
  | some (prod, acc) =>
      let acc_inverse := acc⁻¹
      some (batch_invert_backward prod vec.length (vec, acc_inverse)).1

/-- The content of `vec` in memory when `batch_invert<FieldT>(vec)` stops, with
the flag `true` when it ran to completion and `false` when the assertion failed.
The first loop only reads `vec` (`for (auto el : vec)` copies each element);
the second loop is the only code that writes to it. -/
def batch_invert_mem (vec : List F) : List F × Bool :=
  match batch_invert_forward vec ([], 1) with
  | none => (vec, false)
  | some (prod, acc) =>
      let acc_inverse := acc⁻¹
      ((batch_invert_backward prod vec.length (vec, acc_inverse)).1, true)

/-! ## `power` -/

/-- Loop of `power`: `for (long i = exponent.max_bits() - 1; i >= 0; --i)`.  The
first argument is `i + 1`; the state is `(result, found_one)`. -/
def power_loop (base : F) (exponent : bigint) : Nat → F × Bool → F × Bool
  | 0, st => st
  | i + 1, (result, found_one) =>
      let result := if found_one then result * result else result
      if exponent.test_bit i then power_loop base exponent i (result * base, true)
      else power_loop base exponent i (result, found_one)

/-- The routine `power<FieldT, m>(base, exponent)` for a `bigint<m>` exponent. -/
def power (base : F) (exponent : bigint) : F :=
  (power_loop base exponent exponent.max_bits (1, false)).1

/-- The routine `power<FieldT>(base, exponent)` for an `unsigned long` exponent. -/
def power_ulong (base : F) (exponent : Nat) : F :=
  power base (bigint.of_ulong exponent)

end generic

/-! ## Packing into prime-field elements -/

/-- The outer loop `for (size_t i = 0; i < repacked_size; ++i) result[i] = ...`:
the first `n` entries of `result`, or `none` when a body has no value. -/
def pack_loop {α : Type} (body : Nat → Option α) : Nat → Option (List α)
  | 0 => some []
  | n + 1 =>
      match pack_loop body n with
      | none => none
      | some result =>
          match body n with
          | none => none
          | some x => some (result ++ [x])

/-- Inner loop of `pack_int_vector_into_field_element_vector` for the output
index `i`: the big integer `b` after the iterations `0, ..., j-1` (the last
argument is `j`). -/
def pack_int_vector_chunk (num_limbs : Nat) (v : List Nat) (w chunk_bits i : Nat) :
    Nat → Option bigint
  | 0 => some (bigint.zero num_limbs)
  | j + 1 =>
      match pack_int_vector_chunk num_limbs v w chunk_bits i j with
      | none => none
      | some b =>
          if w = 0 then none            -- division by zero
          else
            let word_index := (i * chunk_bits + j) / w
            let pos_in_word := (i * chunk_bits + j) % w
            let word_or_0 := if word_index < v.length then v.getD word_index 0 else 0
            let bit := (word_or_0 >>> pos_in_word) &&& 1
            b.or_limb (j / GMP_NUMB_BITS) ((bit <<< (j % GMP_NUMB_BITS)) % 2 ^ GMP_NUMB_BITS)

/-- The routine `pack_int_vector_into_field_element_vector<FieldT>(v, w)` over
the prime field `ZMod p`. -/
def pack_int_vector_into_field_element_vector {p : Nat} (C : FieldT_consts (ZMod p))
    (v : List Nat) (w : Nat) : Option (List (ZMod p)) :=
  let chunk_bits := C.num_bits - 1
  match div_ceil (v.length * w) chunk_bits with
  | none => none
  | some repacked_size =>
      pack_loop
        (fun i => (pack_int_vector_chunk C.num_limbs v w chunk_bits i chunk_bits).map
          (FieldT_of_bigint p))
        repacked_size

/-- Inner loop of `pack_bit_vector_into_field_element_vector` for the output
index `i`: the big integer `b` after the iterations `0, ..., j-1` (the last
argument is `j`). -/
def pack_bit_vector_chunk (num_limbs : Nat) (v : bit_vector) (chunk_bits i : Nat) :
    Nat → Option bigint
  | 0 => some (bigint.zero num_limbs)
  | j + 1 =>
      match pack_bit_vector_chunk num_limbs v chunk_bits i j with
      | none => none
      | some b =>
          let bit : Nat :=
            if i * chunk_bits + j < v.length ∧ v.getD (i * chunk_bits + j) false = true
            then 1 else 0
          b.or_limb (j / GMP_NUMB_BITS) ((bit <<< (j % GMP_NUMB_BITS)) % 2 ^ GMP_NUMB_BITS)

/-- The routine `pack_bit_vector_into_field_element_vector<FieldT>(v, chunk_bits)`
over the prime field `ZMod p`; `none` is the failed assertion
`chunk_bits <= FieldT::num_bits-1` or a step without value. -/
def pack_bit_vector_into_field_element_vector {p : Nat} (C : FieldT_consts (ZMod p))
    (v : bit_vector) (chunk_bits : Nat) : Option (List (ZMod p)) :=
  if chunk_bits ≤ C.num_bits - 1 then
    match div_ceil v.length chunk_bits with
    | none => none
    | some repacked_size =>
        pack_loop
          (fun i => (pack_bit_vector_chunk C.num_limbs v chunk_bits i chunk_bits).map
            (FieldT_of_bigint p))
          repacked_size
  else none

/-- The one-argument overload `pack_bit_vector_into_field_element_vector<FieldT>(v)`. -/
def pack_bit_vector_into_field_element_vector_default {p : Nat} (C : FieldT_consts (ZMod p))
    (v : bit_vector) : Option (List (ZMod p)) :=
  pack_bit_vector_into_field_element_vector C v (C.num_bits - 1)

/-! ## Bit decomposition of a prime-field element -/

/-- The routine `convert_field_element_to_bit_vector<FieldT>(el)`. -/
def convert_field_element_to_bit_vector {p : Nat} (C : FieldT_consts (ZMod p))
    (el : ZMod p) : bit_vector :=
  let b := as_bigint C el
  (List.range C.size_in_bits).map (fun i => b.test_bit i)

/-- The overload `convert_field_element_to_bit_vector<FieldT>(el, bitcount)`.  The
iterator `result.begin() + bitcount` past the end of `result` has no defined
result. -/
def convert_field_element_to_bit_vector_count {p : Nat} (C : FieldT_consts (ZMod p))
    (el : ZMod p) (bitcount : Nat) : Option bit_vector :=
  let result := convert_field_element_to_bit_vector C el
  if bitcount ≤ result.length then some (result.take bitcount) else none

/-! ## Vocabulary of the statements -/

/-- The common shape of the two inner packing loops, used to reason about both:
`for (j = 0; j < ...; ++j) b.data[j / GMP_NUMB_BITS] |= f(j) << (j % GMP_NUMB_BITS)`
starting from the zero big integer; the last argument is the number of
iterations done. -/
def or_bits_loop (num_limbs : Nat) (f : Nat → Nat) : Nat → Option bigint
  | 0 => some (bigint.zero num_limbs)
  | j + 1 =>
      match or_bits_loop num_limbs f j with
      | none => none
      | some b => b.or_limb (j / GMP_NUMB_BITS) ((f j <<< (j % GMP_NUMB_BITS)) % 2 ^ GMP_NUMB_BITS)

/-- The flat bit sequence of a word sequence, following the words of the
statement: the low `w` bits of each word, least significant first, word after
word. -/
def flat_bits : List Nat → Nat → bit_vector
  | [], _ => []
  | word :: rest, w => (List.range w).map (fun j => word.testBit j) ++ flat_bits rest w

/-- The little-endian integer encoded by a bit sequence, `Σ bits[i] * 2^i`. -/
def bits_to_nat : bit_vector → Nat
  | [] => 0
  | b :: rest => b.toNat + 2 * bits_to_nat rest

/-- Truncation of a bit sequence to `n` entries, padding with zero bits when it
is shorter. -/
def truncate_pad (bits : bit_vector) (n : Nat) : bit_vector :=
  (List.range n).map (fun i => bits.getD i false)

/-- The prime field of modulus 7 with its constants: 3-bit modulus, one limb,
`7 - 1 = 2 * 3` so the two-adicity is 1 and `6 = -1` is the primitive square
root of unity. -/
def F7_consts : FieldT_consts (ZMod 7) :=
  { num_bits := 3, num_limbs := 1, s := 1, root_of_unity := 6, size_in_bits := 3 }

/-- Modular exponentiation by squaring with fuel, `a^e mod p`; it only serves to
evaluate powers in the example field `ZMod P36`. -/
def pow_mod_fast (p : Nat) : Nat → Nat → Nat → Nat
  | 0, _, _ => 1 % p
  | fuel + 1, a, e =>
      if e = 0 then 1 % p
      else
        let h := pow_mod_fast p fuel (a * a % p) (e / 2)
        if e % 2 = 1 then a * h % p else h

/-- The Proth prime `3 * 2^36 + 1`, the modulus of a field of two-adicity 36. -/
def P36 : Nat := 206158430209

/-- The prime field of modulus `3 * 2^36 + 1` with its constants: 38-bit
modulus, one limb, two-adicity 36, and `22^3 = 10648` as the `2^36`-th root of
unity. -/
def P36_consts : FieldT_consts (ZMod P36) :=
  { num_bits := 38, num_limbs := 1, s := 36, root_of_unity := ((10648 : Nat) : ZMod P36),
    size_in_bits := 38 }

instance fact_prime_seven : Fact (Nat.Prime 7) := ⟨by norm_num⟩

end libsnark

/-! # Properties -/

namespace libsnark

/-! ## Batch inversion -/

section batch_invert_proofs
variable {F : Type} [Field F] [DecidableEq F]

/-- The forward pass over nonzero elements appends the running products to
`prod` and multiplies `acc` by the product of the whole sequence. -/
theorem batch_invert_forward_eq (v : List F) (hv : ∀ x ∈ v, x ≠ 0) (prod : List F) (acc : F) :
    batch_invert_forward v (prod, acc)
      = some (prod ++ (List.range v.length).map (fun k => acc * (v.take k).prod),
              acc * v.prod) := by
  induction v generalizing prod acc with
  | nil => simp [batch_invert_forward]
  | cons el rest ih =>
    have hel : el ≠ 0 := hv el (List.mem_cons_self _ _)
    have hrest : ∀ x ∈ rest, x ≠ 0 := fun x hx => hv x (List.mem_cons_of_mem _ hx)
    simp only [batch_invert_forward, if_neg hel]
    rw [ih hrest]
    simp [List.range_succ_eq_map, List.map_map, Function.comp_def, mul_assoc]

/-- The forward pass stops at the first zero element. -/
theorem batch_invert_forward_zero (v : List F) (hv : ∃ x ∈ v, x = 0) (st : List F × F) :
    batch_invert_forward v st = none := by
  induction v generalizing st with
  | nil => simp at hv
  | cons el rest ih =>
    obtain ⟨prod, acc⟩ := st
    by_cases hel : el = 0
    · simp [batch_invert_forward, hel]
    · simp only [batch_invert_forward, if_neg hel]
      apply ih
      obtain ⟨x, hx, hx0⟩ := hv
      rcases List.mem_cons.1 hx with h | h
      · exact absurd (h ▸ hx0) hel
      · exact ⟨x, h, hx0⟩

omit [DecidableEq F] in
/-- Invariant of the backward pass: once the indices at and above
`pre.length` are done, running the remaining `pre.length` iterations from
`acc_inverse = 1 / Π pre` inverts every entry of `pre`. -/
theorem batch_invert_backward_eq (prod : List F) (pre : List F) :
    ∀ rest : List F, (∀ x ∈ pre, x ≠ 0) →
      (∀ k, k < pre.length → prod.getD k 0 = (pre.take k).prod) →
      batch_invert_backward prod pre.length (pre ++ rest, (pre.prod)⁻¹)
        = (pre.map (fun x => x⁻¹) ++ rest, 1) := by
  induction pre using List.reverseRecOn with
  | nil => intro rest _ _; simp [batch_invert_backward]
  | append_singleton init x ih =>
    intro rest hne hprod
    have hx : x ≠ 0 := hne x (by simp)
    have hinit : ∀ y ∈ init, y ≠ 0 := fun y hy => hne y (by simp [hy])
    have hip : init.prod ≠ 0 := List.prod_ne_zero (fun h => hinit 0 h rfl)
    have hlen : (init ++ [x]).length = init.length + 1 := by simp
    rw [hlen]
    simp only [batch_invert_backward]
    have hp := hprod init.length (by simp)
    rw [hp]
    have h1 : (init ++ [x] ++ rest).getD init.length 0 = x := by
      simp [List.getElem_append_right]
    have h2 : ((init ++ [x]).take init.length).prod = init.prod := by simp
    have h3 : (init ++ [x]).prod = init.prod * x := by simp
    rw [h1, h2, h3]
    have h4 : (init.prod * x)⁻¹ * init.prod = x⁻¹ := by field_simp
    have h5 : (init.prod * x)⁻¹ * x = init.prod⁻¹ := by field_simp; ring
    rw [h4, h5]
    have h6 : (init ++ [x] ++ rest).set init.length x⁻¹ = init ++ (x⁻¹ :: rest) := by
      simp [List.set_append]
    rw [h6, ih (x⁻¹ :: rest) hinit]
    · simp
    · intro k hk
      rw [hprod k (by simp; omega)]
      congr 1
      rw [List.take_append_of_le_length (by omega)]

/-- On a sequence without zero, `batch_invert` replaces every entry by its
inverse. -/
theorem batch_invert_eq_map_inv (v : List F) (hv : ∀ x ∈ v, x ≠ 0) :
    batch_invert v = some (v.map (fun x => x⁻¹)) := by
  unfold batch_invert
  rw [batch_invert_forward_eq v hv]
  simp only [List.nil_append, one_mul]
  have h := batch_invert_backward_eq ((List.range v.length).map (fun k => (v.take k).prod)) v [] hv
    (by intro k hk; simp [List.getD_eq_getElem?_getD, hk])
  simp only [List.append_nil] at h
  rw [h]

/-- C1: for every sequence `v` of field elements none of which is zero (the
empty sequence included), `batch_invert(v)` returns, the sequence keeps its
length, and each new entry is the multiplicative inverse of the original one:
`new v[i] * original v[i] = one`. -/
theorem batch_invert_correct (v : List F) (hv : ∀ x ∈ v, x ≠ 0) :
    ∃ r : List F, batch_invert v = some r ∧ r.length = v.length ∧
      ∀ (i : Nat) (hi : i < v.length) (hr : i < r.length),
        r[i] * v[i] = 1 ∧ r[i] = (v[i])⁻¹ := by
  refine ⟨v.map (fun x => x⁻¹), batch_invert_eq_map_inv v hv, by simp, ?_⟩
  intro i hi hr
  have hne : v[i] ≠ 0 := hv _ (List.getElem_mem hi)
  simp [hne]

/-- C1, witness: over the prime field of modulus 7 the sequence `[2,3,4]` has no
zero and `batch_invert` turns it into `[4,5,2]`. -/
theorem batch_invert_correct_witness :
    (∀ x ∈ ([2, 3, 4] : List (ZMod 7)), x ≠ 0) ∧
      batch_invert ([2, 3, 4] : List (ZMod 7)) = some [4, 5, 2] := by
  refine ⟨by decide, ?_⟩
  obtain ⟨r, hr, hlen, hmul⟩ := batch_invert_correct ([2, 3, 4] : List (ZMod 7)) (by decide)
  rw [hr]
  match r, hlen, hmul with
  | [a, b, c], _, hmul =>
    have ha := (hmul 0 (by simp) (by simp)).1
    have hb := (hmul 1 (by simp) (by simp)).1
    have hc := (hmul 2 (by simp) (by simp)).1
    simp only [List.getElem_cons_zero, List.getElem_cons_succ] at ha hb hc
    have e2 : ∀ a : ZMod 7, a * 2 = 1 → a = 4 := by decide
    have e3 : ∀ a : ZMod 7, a * 3 = 1 → a = 5 := by decide
    have e4 : ∀ a : ZMod 7, a * 4 = 1 → a = 2 := by decide
    rw [e2 a ha, e3 b hb, e4 c hc]

end batch_invert_proofs

/-! ## Exponentiation -/

/-- The limb width is positive. -/
theorem GMP_NUMB_BITS_pos : 0 < GMP_NUMB_BITS := by decide

/-- Bit `i` of the integer of a well-formed limb sequence is bit `i % G` of limb `i / G`. -/
theorem bigint.testBit_limbs_to_nat (data : List Nat)
    (hwf : ∀ limb ∈ data, limb < 2 ^ GMP_NUMB_BITS) (i : Nat) :
    (bigint.limbs_to_nat data).testBit i
      = if i ≥ data.length * GMP_NUMB_BITS then false
        else (data.getD (i / GMP_NUMB_BITS) 0).testBit (i - GMP_NUMB_BITS * (i / GMP_NUMB_BITS)) := by
  induction data generalizing i with
  | nil => simp [bigint.limbs_to_nat]
  | cons limb rest ih =>
    have hl : limb < 2 ^ GMP_NUMB_BITS := hwf limb (List.mem_cons_self _ _)
    have hr : ∀ x ∈ rest, x < 2 ^ GMP_NUMB_BITS := fun x hx => hwf x (List.mem_cons_of_mem _ hx)
    have hG := GMP_NUMB_BITS_pos
    rw [bigint.limbs_to_nat, Nat.add_comm, Nat.testBit_mul_pow_two_add _ hl]
    by_cases hi : i < GMP_NUMB_BITS
    · have h0 : i / GMP_NUMB_BITS = 0 := Nat.div_eq_of_lt hi
      have h1 : ¬ i ≥ (limb :: rest).length * GMP_NUMB_BITS := by
        simp only [List.length_cons, Nat.succ_mul]; omega
      rw [if_pos hi, if_neg h1, h0]
      simp
    · have hge : GMP_NUMB_BITS ≤ i := Nat.le_of_not_lt hi
      have hdiv : i / GMP_NUMB_BITS = (i - GMP_NUMB_BITS) / GMP_NUMB_BITS + 1 := by
        rw [← Nat.sub_add_cancel hge, Nat.add_div_right _ hG]; simp
      rw [if_neg hi, ih hr]
      have hsub : i - GMP_NUMB_BITS - GMP_NUMB_BITS * ((i - GMP_NUMB_BITS) / GMP_NUMB_BITS)
          = i - GMP_NUMB_BITS * (i / GMP_NUMB_BITS) := by
        rw [hdiv, Nat.mul_add]; omega
      by_cases hc : i ≥ (limb :: rest).length * GMP_NUMB_BITS
      · have hc2 : i - GMP_NUMB_BITS ≥ rest.length * GMP_NUMB_BITS := by
          simp only [List.length_cons, Nat.succ_mul] at hc; omega
        rw [if_pos hc, if_pos hc2]
      · have hc2 : ¬ i - GMP_NUMB_BITS ≥ rest.length * GMP_NUMB_BITS := by
          simp only [List.length_cons, Nat.succ_mul] at hc; omega
        rw [if_neg hc, if_neg hc2, hsub, hdiv]
        simp

/-- On a well-formed big integer `test_bit` reads the bits of the integer it
stands for. -/
theorem bigint.test_bit_eq_testBit (b : bigint) (hb : b.wf) (i : Nat) :
    b.test_bit i = b.to_nat.testBit i := by
  rw [bigint.to_nat, bigint.testBit_limbs_to_nat b.data hb i]
  rfl

/-- A well-formed big integer is below `2^max_bits`. -/
theorem bigint.to_nat_lt (b : bigint) (hb : b.wf) : b.to_nat < 2 ^ b.max_bits := by
  apply Nat.lt_pow_two_of_testBit
  intro i hi
  rw [← bigint.test_bit_eq_testBit b hb]
  unfold bigint.test_bit
  exact if_pos hi

/-- The default-constructed big integer stands for 0. -/
theorem bigint.to_nat_zero (n : Nat) : (bigint.zero n).to_nat = 0 := by
  unfold bigint.to_nat bigint.zero
  induction n with
  | zero => rfl
  | succ n ih =>
    simp only [List.replicate_succ, bigint.limbs_to_nat]
    rw [ih]
    simp

/-- The default-constructed big integer is well formed. -/
theorem bigint.zero_wf (n : Nat) : (bigint.zero n).wf := by
  intro limb hl
  simp only [bigint.zero] at hl
  rw [List.eq_of_mem_replicate hl]
  exact Nat.two_pow_pos _

section power_proofs
variable {F : Type} [Field F]

/-- Invariant of the loop of `power`: with the bits at and above `i` consumed,
`result = base^(e / 2^i)` and `found_one` says whether that quotient is nonzero. -/
theorem power_loop_eq (base : F) (e : bigint) (he : e.wf) (i : Nat) :
    power_loop base e i (base ^ (e.to_nat / 2 ^ i), decide (e.to_nat / 2 ^ i ≠ 0))
      = (base ^ e.to_nat, decide (e.to_nat ≠ 0)) := by
  induction i with
  | zero => simp [power_loop]
  | succ i ih =>
    have hdiv : e.to_nat / 2 ^ i = 2 * (e.to_nat / 2 ^ (i + 1)) + (e.to_nat.testBit i).toNat := by
      rw [Nat.toNat_testBit, pow_succ, ← Nat.div_div_eq_div_mul]
      omega
    rw [power_loop]
    rw [bigint.test_bit_eq_testBit e he]
    generalize e.to_nat / 2 ^ (i + 1) = h at hdiv ⊢
    have hsq : (if decide (h ≠ 0) = true then base ^ h * base ^ h else base ^ h) = base ^ (2 * h) := by
      by_cases hh : h = 0
      · simp [hh]
      · simp [hh, two_mul, pow_add]
    rw [hsq]
    cases hb : e.to_nat.testBit i
    · rw [hb] at hdiv
      simp only [Bool.toNat_false, Nat.add_zero] at hdiv
      have : decide (h ≠ 0) = decide (e.to_nat / 2 ^ i ≠ 0) := by
        rw [hdiv]; simp
      simp only [Bool.false_eq_true, if_false]
      rw [this, ← hdiv]
      exact ih
    · rw [hb] at hdiv
      simp only [Bool.toNat_true] at hdiv
      have : true = decide (e.to_nat / 2 ^ i ≠ 0) := by
        rw [hdiv]; simp
      simp only [if_true]
      rw [this, ← pow_succ, ← hdiv]
      exact ih

/-- Square-and-multiply computes the power by the integer of the exponent. -/
theorem power_eq_pow (base : F) (e : bigint) (he : e.wf) : power base e = base ^ e.to_nat := by
  unfold power
  have h0 : e.to_nat / 2 ^ e.max_bits = 0 := Nat.div_eq_of_lt (bigint.to_nat_lt e he)
  have h := power_loop_eq base e he e.max_bits
  rw [h0] at h
  simp only [pow_zero, ne_eq, not_true_eq_false, decide_False] at h
  rw [h]


/-- The single-limb exponent of an `unsigned long` value. -/
theorem power_ulong_eq_pow (base : F) (k : Nat) (hk : k < 2 ^ ULONG_BITS) :
    power_ulong base k = base ^ k := by
  have hk : k < 2 ^ GMP_NUMB_BITS := hk
  unfold power_ulong
  have hwf : (bigint.of_ulong k).wf := by
    intro limb hl
    simp only [bigint.of_ulong, List.mem_singleton] at hl
    rw [hl]
    exact Nat.mod_lt _ (Nat.two_pow_pos _)
  rw [power_eq_pow base _ hwf]
  simp [bigint.of_ulong, bigint.to_nat, bigint.limbs_to_nat, Nat.mod_eq_of_lt hk]

/-- C2: for every field element `base` and every big-integer exponent `e` (any
limb count, any number of leading zero bits or limbs), `power(base, e)` is
`base` multiplied by itself `e` times; the zero exponent gives `one`, the
exponent 1 gives `base`, and the machine-width overload agrees with the
big-integer overload on the single-limb representation. -/
theorem power_correct (base : F) :
    (∀ e : bigint, e.wf → power base e = base ^ e.to_nat) ∧
    (∀ n : Nat, power base (bigint.zero n) = 1) ∧
    (∀ e : bigint, e.wf → e.to_nat = 1 → power base e = base) ∧
    power_ulong base 0 = 1 ∧ power_ulong base 1 = base ∧
    (∀ k : Nat, k < 2 ^ ULONG_BITS →
      power_ulong base k = power base ⟨[k]⟩ ∧ power_ulong base k = base ^ k) := by
  refine ⟨power_eq_pow base, ?_, ?_, ?_, ?_, ?_⟩
  · intro n
    rw [power_eq_pow base _ (bigint.zero_wf n), bigint.to_nat_zero, pow_zero]
  · intro e he h1
    rw [power_eq_pow base e he, h1, pow_one]
  · rw [power_ulong_eq_pow base 0 (Nat.two_pow_pos _), pow_zero]
  · rw [power_ulong_eq_pow base 1 (by decide), pow_one]
  · intro k hk
    refine ⟨?_, power_ulong_eq_pow base k hk⟩
    have hk2 : k < 2 ^ GMP_NUMB_BITS := hk
    unfold power_ulong bigint.of_ulong
    rw [Nat.mod_eq_of_lt hk2]

/-- C2, witness: in the field of modulus 7, with the two-limb exponent 5 (one
leading zero limb), `power(3, 5) = 5`. -/
theorem power_correct_witness :
    bigint.wf ⟨[5, 0]⟩ ∧ power (3 : ZMod 7) ⟨[5, 0]⟩ = 5 :=
  ⟨by decide, by rw [(power_correct (3 : ZMod 7)).1 ⟨[5, 0]⟩ (by decide)]; decide⟩

/-- C10: for every field element `base` and machine-width exponents `a`, `b`
whose sum does not overflow the machine word,
`power(base, a + b) = power(base, a) * power(base, b)`. -/
theorem power_ulong_add (base : F) (a b : Nat) (h : a + b < 2 ^ ULONG_BITS) :
    power_ulong base (a + b) = power_ulong base a * power_ulong base b := by
  rw [power_ulong_eq_pow base (a + b) h, power_ulong_eq_pow base a (by omega),
    power_ulong_eq_pow base b (by omega), pow_add]

/-- C10, witness: in the field of modulus 7, `power(3, 2 + 3) = power(3, 2) *
power(3, 3)`. -/
theorem power_ulong_add_witness :
    2 + 3 < 2 ^ ULONG_BITS ∧
      power_ulong (3 : ZMod 7) (2 + 3) = power_ulong 3 2 * power_ulong 3 3 :=
  ⟨by decide, power_ulong_add (3 : ZMod 7) 2 3 (by decide)⟩

end power_proofs

/-! ## Root of unity -/

/-- The halving loop on a power of two counts its exponent. -/
theorem log2_loop_two_pow (k : Nat) : ∀ fuel r : Nat, k ≤ fuel →
    log2_loop fuel (2 ^ k) r = r + k := by
  induction k with
  | zero =>
    intro fuel r _
    cases fuel <;> simp [log2_loop]
  | succ k ih =>
    intro fuel r hf
    obtain ⟨f, rfl⟩ : ∃ f, fuel = f + 1 := ⟨fuel - 1, by omega⟩
    have h1 : 2 ^ (k + 1) > 1 := Nat.one_lt_two_pow (by omega)
    have h2 : 2 ^ (k + 1) >>> 1 = 2 ^ k := by
      rw [Nat.shiftRight_eq_div_pow, pow_succ]; simp
    rw [log2_loop, if_pos h1, h2, ih f (r + 1) (by omega)]
    omega

/-- On a power of two `log2` returns the exponent. -/
theorem log2_two_pow (k : Nat) : log2 (2 ^ k) = k := by
  unfold log2
  have h : 2 ^ k &&& (2 ^ k - 1) = 0 := by
    rw [Nat.and_pow_two_sub_one_eq_mod]; simp
  rw [if_pos h, log2_loop_two_pow k _ _ (Nat.le_of_lt (Nat.lt_two_pow k))]
  simp

/-- Below the width of `unsigned int` the shift `1u << logn` is `2^logn`. -/
theorem shl_1u_eq (logn : Nat) (h : logn < UINT_BITS) : shl_1u logn = some (2 ^ logn) := by
  unfold shl_1u
  rw [if_pos h, Nat.shiftLeft_eq, Nat.one_mul,
    Nat.mod_eq_of_lt (Nat.pow_lt_pow_right (by decide) h)]

section root_proofs
variable {F : Type} [Field F]

/-- The squaring loop from `i` down to `logn` raises to the power `2^(i - logn)`. -/
theorem get_root_of_unity_loop_eq (logn : Nat) (i : Nat) (omega : F) :
    get_root_of_unity_loop logn i omega = omega ^ 2 ^ (i - logn) := by
  induction i generalizing omega with
  | zero => simp [get_root_of_unity_loop]
  | succ i ih =>
    rw [get_root_of_unity_loop]
    by_cases h : i + 1 > logn
    · rw [if_pos h, ih, ← pow_two, ← pow_mul, ← pow_succ']
      congr 2
      omega
    · rw [if_neg h]
      have : i + 1 - logn = 0 := by omega
      rw [this]; simp

/-- For `logn` within the two-adicity and below the width of `unsigned int`,
`get_root_of_unity(2^logn)` returns the root raised to `2^(s - logn)`. -/
theorem get_root_of_unity_eq (C : FieldT_consts F) (logn : Nat) (h1 : logn ≤ C.s)
    (h2 : logn < UINT_BITS) :
    get_root_of_unity C (2 ^ logn) = some (C.root_of_unity ^ 2 ^ (C.s - logn)) := by
  unfold get_root_of_unity
  simp only [log2_two_pow, shl_1u_eq logn h2]
  simp [h1, get_root_of_unity_loop_eq]

/-- The order of the value returned by `get_root_of_unity`: when `root_of_unity`
is a primitive `2^s`-th root of unity, for every `n = 2^logn` with `logn ≤ s`
and `logn` below the width of `unsigned int`, `w = get_root_of_unity(n)` has
order exactly `n`, `power(w, n) = one` and, when `n > 1`, `power(w, n/2) ≠ one`. -/
theorem get_root_of_unity_order (C : FieldT_consts F)
    (hprim : IsPrimitiveRoot C.root_of_unity (2 ^ C.s)) (logn : Nat) (h1 : logn ≤ C.s)
    (h2 : logn < UINT_BITS) :
    ∃ w : F, get_root_of_unity C (2 ^ logn) = some w ∧ orderOf w = 2 ^ logn ∧
      power_ulong w (2 ^ logn) = 1 ∧ (2 ^ logn > 1 → power_ulong w (2 ^ logn / 2) ≠ 1) := by
  refine ⟨_, get_root_of_unity_eq C logn h1 h2, ?_⟩
  have hw : IsPrimitiveRoot (C.root_of_unity ^ 2 ^ (C.s - logn)) (2 ^ logn) := by
    apply IsPrimitiveRoot.pow (Nat.two_pow_pos _) hprim
    rw [← pow_add]; congr 1; omega
  have hlt : 2 ^ logn < 2 ^ ULONG_BITS :=
    Nat.pow_lt_pow_right (by decide) (by unfold UINT_BITS at h2; unfold ULONG_BITS; omega)
  refine ⟨hw.eq_orderOf.symm, ?_, ?_⟩
  · rw [power_ulong_eq_pow _ _ hlt]
    exact hw.pow_eq_one
  · intro hn
    rw [power_ulong_eq_pow _ _ (lt_of_le_of_lt (Nat.div_le_self _ _) hlt)]
    intro h
    have hdvd := hw.dvd_of_pow_eq_one _ h
    have hpos : 0 < 2 ^ logn / 2 := Nat.div_pos (by omega) (by decide)
    have := Nat.le_of_dvd hpos hdvd
    omega

/-- At and beyond the width of `unsigned int` the shift `1u << logn` has no
value: `get_root_of_unity(2^logn)` returns nothing, whatever the field. -/
theorem get_root_of_unity_wide (C : FieldT_consts F) (logn : Nat) (h : UINT_BITS ≤ logn) :
    get_root_of_unity C (2 ^ logn) = none := by
  unfold get_root_of_unity
  simp only [log2_two_pow]
  have : shl_1u logn = none := by
    unfold shl_1u
    rw [if_neg (by omega)]
  rw [this]

end root_proofs

/-- The fast modular power is the power modulo `p`. -/
theorem pow_mod_fast_eq (p : Nat) (fuel : Nat) : ∀ a e : Nat, e < 2 ^ fuel →
    pow_mod_fast p fuel a e = a ^ e % p := by
  induction fuel with
  | zero =>
    intro a e he
    have : e = 0 := by simpa using he
    simp [pow_mod_fast, this]
  | succ fuel ih =>
    intro a e he
    rw [pow_mod_fast]
    by_cases h0 : e = 0
    · simp [h0]
    · rw [if_neg h0]
      have hh : e / 2 < 2 ^ fuel := by
        rw [pow_succ] at he; omega
      simp only [ih _ _ hh]
      have hsq : (a * a % p) ^ (e / 2) % p = (a * a) ^ (e / 2) % p := by
        rw [← Nat.pow_mod]
      rw [hsq, ← pow_two, ← pow_mul]
      by_cases h1 : e % 2 = 1
      · rw [if_pos h1]
        have : e = 2 * (e / 2) + 1 := by omega
        conv_rhs => rw [this, pow_succ, Nat.mul_mod]
        rw [Nat.mul_mod, Nat.mod_mod, Nat.mul_comm (a ^ (2 * (e / 2)) % p) (a % p)]
      · rw [if_neg h1]
        have : e = 2 * (e / 2) := by omega
        conv_rhs => rw [this]


/-- Powers of a numeral in `ZMod p` through the fast modular power. -/
theorem zmod_pow_eq (p a e fuel : Nat) (he : e < 2 ^ fuel) :
    ((a : ZMod p)) ^ e = ((pow_mod_fast p fuel a e : Nat) : ZMod p) := by
  rw [pow_mod_fast_eq p fuel a e he, ZMod.natCast_mod, Nat.cast_pow]

/-- The factorisation of `P36 - 1`. -/
theorem P36_pred : P36 - 1 = 2 ^ 36 * 3 := by decide

/-- The number `3 * 2^36 + 1` is prime (Lucas test with the primitive root 22). -/
theorem P36_prime : Nat.Prime P36 := by
  apply lucas_primality P36 ((22 : Nat) : ZMod P36)
  · rw [zmod_pow_eq P36 22 (P36 - 1) 40 (by decide)]
    have : pow_mod_fast P36 40 22 (P36 - 1) = 1 := by decide
    rw [this]; simp
  · intro q hq hdvd
    rw [P36_pred] at hdvd
    have hq23 : q = 2 ∨ q = 3 := by
      rcases (Nat.Prime.dvd_mul hq).1 hdvd with h | h
      · left
        exact (Nat.prime_dvd_prime_iff_eq hq Nat.prime_two).1 (hq.dvd_of_dvd_pow h)
      · right
        exact (Nat.prime_dvd_prime_iff_eq hq Nat.prime_three).1 h
    have hne : ∀ x : Nat, x % P36 ≠ 1 → ((x : Nat) : ZMod P36) ≠ 1 := by
      intro x hx h
      have h1 : ((x : Nat) : ZMod P36) = ((1 : Nat) : ZMod P36) := by simpa using h
      rw [ZMod.natCast_eq_natCast_iff'] at h1
      exact hx h1
    rcases hq23 with rfl | rfl
    · rw [zmod_pow_eq P36 22 ((P36 - 1) / 2) 40 (by decide)]
      exact hne _ (by decide)
    · rw [zmod_pow_eq P36 22 ((P36 - 1) / 3) 40 (by decide)]
      exact hne _ (by decide)

instance fact_prime_P36 : Fact (Nat.Prime P36) := ⟨P36_prime⟩

/-- In `ZMod P36` the element 10648 is a primitive `2^36`-th root of unity. -/
theorem root_P36 : IsPrimitiveRoot ((10648 : Nat) : ZMod P36) (2 ^ 36) := by
  have h1 : ((10648 : Nat) : ZMod P36) ^ 2 ^ (35 + 1) = 1 := by
    rw [zmod_pow_eq P36 10648 (2 ^ (35 + 1)) 40 (by decide)]
    have : pow_mod_fast P36 40 10648 (2 ^ (35 + 1)) = 1 := by decide
    rw [this]; simp
  have h2 : ¬ ((10648 : Nat) : ZMod P36) ^ 2 ^ 35 = 1 := by
    rw [zmod_pow_eq P36 10648 (2 ^ 35) 40 (by decide)]
    intro h
    have h1 : ((pow_mod_fast P36 40 10648 (2 ^ 35) : Nat) : ZMod P36) = ((1 : Nat) : ZMod P36) := by
      simpa using h
    rw [ZMod.natCast_eq_natCast_iff'] at h1
    revert h1
    decide
  have := orderOf_eq_prime_pow h2 h1
  rw [← this]
  exact IsPrimitiveRoot.orderOf _

/-- C3, at the input `n = 2^32` in the prime field of modulus `3 * 2^36 + 1`:
the constant `root_of_unity` is a primitive `2^s`-th root of unity with
`s = 36`, so `logn = 32 ≤ s`, and yet `get_root_of_unity(2^32)` returns nothing:
the 32-bit shift `1u << 32` has no value equal to `n` and the first assertion
fails. -/
theorem get_root_of_unity_two_pow_32 :
    IsPrimitiveRoot P36_consts.root_of_unity (2 ^ P36_consts.s) ∧ 32 ≤ P36_consts.s ∧
      get_root_of_unity P36_consts (2 ^ 32) = none :=
  ⟨root_P36, by decide, get_root_of_unity_wide P36_consts 32 (by decide)⟩

/-! ## Bits and field elements -/

section bits_proofs
variable {F : Type} [Field F]

/-- The loop of `convert_bit_vector_to_field_element` adds `c` times the encoded
integer to `res` and doubles `c` once for each bit. -/
theorem convert_bit_vector_to_field_element_loop_eq (v : bit_vector) (res c : F) :
    convert_bit_vector_to_field_element_loop v (res, c)
      = (res + c * (bits_to_nat v : F), c * 2 ^ v.length) := by
  induction v generalizing res c with
  | nil => simp [convert_bit_vector_to_field_element_loop, bits_to_nat]
  | cons b rest ih =>
    rw [convert_bit_vector_to_field_element_loop, ih]
    cases b <;> simp [bits_to_nat, pow_succ] <;> constructor <;> ring

/-- The image in the field of the encoded integer is the field sum of the
powers of two at the set bits. -/
theorem bits_to_nat_cast_eq_sum (v : bit_vector) :
    (bits_to_nat v : F)
      = Finset.sum (Finset.range v.length) (fun i => if v.getD i false then (2 : F) ^ i else 0) := by
  induction v with
  | nil => simp [bits_to_nat]
  | cons b rest ih =>
    rw [List.length_cons, Finset.sum_range_succ', bits_to_nat]
    push_cast
    rw [ih, Finset.mul_sum]
    have : ∀ i, (if (b :: rest).getD (i + 1) false = true then (2 : F) ^ (i + 1) else 0)
        = 2 * (if rest.getD i false = true then (2 : F) ^ i else 0) := by
      intro i
      simp only [List.getD_cons_succ]
      split <;> simp [pow_succ, mul_comm]
    simp only [this]
    cases b <;> simp [add_comm]

/-- Within the length bound the routine returns the image in the field of the
encoded integer. -/
theorem convert_bit_vector_to_field_element_eq (C : FieldT_consts F) (bits : bit_vector)
    (hlen : bits.length ≤ C.num_bits) :
    convert_bit_vector_to_field_element C bits = some ((bits_to_nat bits : Nat) : F) := by
  unfold convert_bit_vector_to_field_element
  rw [if_pos hlen, convert_bit_vector_to_field_element_loop_eq]
  simp

/-- C9: for every bit sequence of length at most `num_bits`,
`convert_bit_vector_to_field_element` returns the field sum over `i` of
`bits[i] * 2^i`, which is the image in the field of the little-endian integer
the bits encode; the empty sequence gives zero. -/
theorem convert_bit_vector_to_field_element_correct (C : FieldT_consts F) (bits : bit_vector)
    (hlen : bits.length ≤ C.num_bits) :
    convert_bit_vector_to_field_element C bits
        = some (Finset.sum (Finset.range bits.length)
            (fun i => if bits.getD i false then (2 : F) ^ i else 0)) ∧
      convert_bit_vector_to_field_element C bits = some ((bits_to_nat bits : Nat) : F) ∧
      convert_bit_vector_to_field_element C [] = some 0 := by
  have h := convert_bit_vector_to_field_element_eq C bits hlen
  refine ⟨?_, h, ?_⟩
  · rw [h, bits_to_nat_cast_eq_sum]
  · simp [convert_bit_vector_to_field_element, convert_bit_vector_to_field_element_loop]

end bits_proofs

/-- C9, witness: over the field of modulus 7 the bits `[0,1,1]` (the integer 6)
give the element 6. -/
theorem convert_bit_vector_to_field_element_correct_witness :
    [false, true, true].length ≤ F7_consts.num_bits ∧
      convert_bit_vector_to_field_element F7_consts [false, true, true] = some 6 := by
  refine ⟨by decide, ?_⟩
  rw [(convert_bit_vector_to_field_element_correct F7_consts [false, true, true] (by decide)).2.1]
  decide

/-- Bit `i` of the encoded integer is entry `i` of the sequence. -/
theorem testBit_bits_to_nat (v : bit_vector) (i : Nat) :
    (bits_to_nat v).testBit i = v.getD i false := by
  induction v generalizing i with
  | nil => simp [bits_to_nat]
  | cons b rest ih =>
    rw [bits_to_nat]
    cases i with
    | zero => cases b <;> simp [Nat.add_mod]
    | succ i =>
      rw [Nat.testBit_succ, List.getD_cons_succ, ← ih i]
      congr 1
      cases b <;> simp only [Bool.toNat_false, Bool.toNat_true] <;> omega

/-- The encoded integer of `n` bits is below `2^n`. -/
theorem bits_to_nat_lt (v : bit_vector) : bits_to_nat v < 2 ^ v.length := by
  induction v with
  | nil => simp [bits_to_nat]
  | cons b rest ih =>
    rw [bits_to_nat, List.length_cons, pow_succ]
    cases b <;> simp only [Bool.toNat_false, Bool.toNat_true] <;> omega

/-- Bit `i` of the `n`-limb representation of `x`. -/
theorem bigint.test_bit_of_nat (n x i : Nat) :
    (bigint.of_nat n x).test_bit i = (decide (i < n * GMP_NUMB_BITS) && x.testBit i) := by
  have hG := GMP_NUMB_BITS_pos
  unfold bigint.test_bit bigint.of_nat
  simp only [List.length_map, List.length_range]
  by_cases h : i ≥ n * GMP_NUMB_BITS
  · rw [if_pos h]
    have : ¬ i < n * GMP_NUMB_BITS := by omega
    simp [this]
  · rw [if_neg h]
    have hi : i < n * GMP_NUMB_BITS := by omega
    have hq : i / GMP_NUMB_BITS < n := Nat.div_lt_of_lt_mul (by rw [Nat.mul_comm]; exact hi)
    have hr : i - GMP_NUMB_BITS * (i / GMP_NUMB_BITS) < GMP_NUMB_BITS := by
      have := Nat.mod_lt i hG
      have := Nat.div_add_mod i GMP_NUMB_BITS
      omega
    have hsum : GMP_NUMB_BITS * (i / GMP_NUMB_BITS) + (i - GMP_NUMB_BITS * (i / GMP_NUMB_BITS)) = i := by
      have := Nat.div_add_mod i GMP_NUMB_BITS
      have := Nat.mul_div_le i GMP_NUMB_BITS
      omega
    simp only [List.getD_eq_getElem?_getD, List.getElem?_map, List.getElem?_range hq,
      Option.map_some', Option.getD_some, Nat.testBit_mod_two_pow, hr, decide_True,
      Bool.true_and, hi, ← Nat.shiftRight_eq_div_pow, Nat.testBit_shiftRight, hsum]


/-- C4, as stated, fails: over the field of modulus 7 (`num_bits = 3`) the bit
sequence `[1,1,1]` has length `num_bits`, encodes 7 = 0 mod 7, and comes back
as `[0,0,0]`. -/
theorem roundtrip_counterexample :
    [true, true, true].length ≤ F7_consts.num_bits ∧
      (convert_bit_vector_to_field_element F7_consts [true, true, true]).map
          (fun el => truncate_pad (convert_field_element_to_bit_vector F7_consts el) 3)
        = some [false, false, false] ∧
      (convert_bit_vector_to_field_element F7_consts [true, true, true]).map
          (fun el => truncate_pad (convert_field_element_to_bit_vector F7_consts el) 3)
        ≠ some [true, true, true] := by
  decide

/-- C4, amended: for every bit sequence `b` of length at most `num_bits` whose
encoded integer `Σ b[i] * 2^i` is less than the modulus (the modulus fitting in
`size_in_bits` bits and in `num_limbs` limbs),
`convert_field_element_to_bit_vector(convert_bit_vector_to_field_element(b))`
truncated to `b.length` entries (padded with zero bits when shorter) is `b`. -/
theorem roundtrip_of_lt_modulus {p : Nat} [Fact p.Prime] (C : FieldT_consts (ZMod p))
    (b : bit_vector) (hlen : b.length ≤ C.num_bits) (hval : bits_to_nat b < p)
    (hsize : p ≤ 2 ^ C.size_in_bits) (hlimbs : p ≤ 2 ^ (C.num_limbs * GMP_NUMB_BITS)) :
    ∃ el : ZMod p, convert_bit_vector_to_field_element C b = some el ∧
      truncate_pad (convert_field_element_to_bit_vector C el) b.length = b := by
  refine ⟨_, convert_bit_vector_to_field_element_eq C b hlen, ?_⟩
  have hbit : ∀ i, bits_to_nat b < 2 ^ i → (bits_to_nat b).testBit i = false := fun i h =>
    Nat.testBit_lt_two_pow h
  apply List.ext_getElem
  · simp [truncate_pad]
  · intro i h1 h2
    simp only [truncate_pad, List.getElem_map, List.getElem_range,
      convert_field_element_to_bit_vector, as_bigint, ZMod.val_natCast_of_lt hval,
      List.getD_eq_getElem?_getD, List.getElem?_map]
    have hb : b[i] = (bits_to_nat b).testBit i := by
      rw [testBit_bits_to_nat, List.getD_eq_getElem?_getD, List.getElem?_eq_getElem h2]
      rfl
    rw [hb]
    by_cases hs : i < C.size_in_bits
    · rw [List.getElem?_range hs]
      simp only [Option.map_some', Option.getD_some, bigint.test_bit_of_nat]
      by_cases hl : i < C.num_limbs * GMP_NUMB_BITS
      · simp [hl]
      · have : bits_to_nat b < 2 ^ i :=
          lt_of_lt_of_le hval (le_trans hlimbs (Nat.pow_le_pow_right (by decide) (by omega)))
        simp [hl, hbit i this]
    · have : bits_to_nat b < 2 ^ i :=
        lt_of_lt_of_le hval (le_trans hsize (Nat.pow_le_pow_right (by decide) (by omega)))
      rw [hbit i this, List.getElem?_eq_none (by simp; omega)]
      rfl

/-- C4, witness of the amended statement: over the field of modulus 7 the bits
`[0,1,1]` encode 6 < 7 and come back unchanged. -/
theorem roundtrip_of_lt_modulus_witness :
    [false, true, true].length ≤ F7_consts.num_bits ∧ bits_to_nat [false, true, true] < 7 ∧
      7 ≤ 2 ^ F7_consts.size_in_bits ∧ 7 ≤ 2 ^ (F7_consts.num_limbs * GMP_NUMB_BITS) ∧
      ∃ el : ZMod 7, convert_bit_vector_to_field_element F7_consts [false, true, true] = some el ∧
        truncate_pad (convert_field_element_to_bit_vector F7_consts el) 3 = [false, true, true] :=
  ⟨by decide, by decide, by decide, by decide,
    roundtrip_of_lt_modulus F7_consts [false, true, true] (by decide) (by decide) (by decide)
      (by decide)⟩

/-! ## Packing -/

/-- Replacing limb `q` changes the integer by the difference of the limbs at
weight `2^(G*q)`. -/
theorem bigint.limbs_to_nat_set (data : List Nat) (q x : Nat) (hq : q < data.length) :
    bigint.limbs_to_nat (data.set q x) + data.getD q 0 * 2 ^ (GMP_NUMB_BITS * q)
      = bigint.limbs_to_nat data + x * 2 ^ (GMP_NUMB_BITS * q) := by
  induction data generalizing q with
  | nil => simp at hq
  | cons limb rest ih =>
    cases q with
    | zero => simp [bigint.limbs_to_nat]; omega
    | succ q =>
      have hq2 : q < rest.length := by simpa using hq
      have := ih q hq2
      simp only [List.set_cons_succ, bigint.limbs_to_nat, List.getD_cons_succ]
      have e : 2 ^ (GMP_NUMB_BITS * (q + 1)) = 2 ^ GMP_NUMB_BITS * 2 ^ (GMP_NUMB_BITS * q) := by
        rw [Nat.mul_succ, pow_add, Nat.mul_comm]
      rw [e]
      have h2 : 2 ^ GMP_NUMB_BITS * (bigint.limbs_to_nat (rest.set q x)
            + rest.getD q 0 * 2 ^ (GMP_NUMB_BITS * q))
          = 2 ^ GMP_NUMB_BITS * (bigint.limbs_to_nat rest + x * 2 ^ (GMP_NUMB_BITS * q)) := by
        rw [this]
      linarith [h2]

/-- Limb `q` at its weight is at most the whole integer. -/
theorem bigint.limb_le_limbs_to_nat (data : List Nat) (q : Nat) :
    data.getD q 0 * 2 ^ (GMP_NUMB_BITS * q) ≤ bigint.limbs_to_nat data := by
  induction data generalizing q with
  | nil => simp
  | cons limb rest ih =>
    cases q with
    | zero => simp [bigint.limbs_to_nat]
    | succ q =>
      have := ih q
      simp only [bigint.limbs_to_nat, List.getD_cons_succ]
      have e : 2 ^ (GMP_NUMB_BITS * (q + 1)) = 2 ^ GMP_NUMB_BITS * 2 ^ (GMP_NUMB_BITS * q) := by
        rw [Nat.mul_succ, pow_add, Nat.mul_comm]
      rw [e]
      have h2 := Nat.mul_le_mul_left (2 ^ GMP_NUMB_BITS) this
      linarith [h2]

/-- One step `b.data[j / G] |= bit << (j % G)` on a big integer below `2^j`
adds `bit * 2^j`. -/
theorem bigint.or_limb_bit (b b2 : bigint) (j bit : Nat) (hb : b.to_nat < 2 ^ j) (hbit : bit ≤ 1)
    (h : b.or_limb (j / GMP_NUMB_BITS) ((bit <<< (j % GMP_NUMB_BITS)) % 2 ^ GMP_NUMB_BITS)
      = some b2) :
    b2.data.length = b.data.length ∧ b2.to_nat = b.to_nat + bit * 2 ^ j := by
  have hG := GMP_NUMB_BITS_pos
  unfold bigint.or_limb at h
  by_cases hq : j / GMP_NUMB_BITS < b.data.length
  · rw [if_pos hq] at h
    injection h with h
    subst h
    refine ⟨by simp, ?_⟩
    have hr : j % GMP_NUMB_BITS < GMP_NUMB_BITS := Nat.mod_lt _ hG
    have hj : 2 ^ j = 2 ^ (j % GMP_NUMB_BITS) * 2 ^ (GMP_NUMB_BITS * (j / GMP_NUMB_BITS)) := by
      rw [← pow_add]; congr 1
      have := Nat.mod_add_div j GMP_NUMB_BITS
      omega
    have hle := bigint.limb_le_limbs_to_nat b.data (j / GMP_NUMB_BITS)
    have hlimb : b.data.getD (j / GMP_NUMB_BITS) 0 < 2 ^ (j % GMP_NUMB_BITS) := by
      unfold bigint.to_nat at hb
      rw [hj] at hb
      exact Nat.lt_of_mul_lt_mul_right (lt_of_le_of_lt hle hb)
    have hpow : 2 ^ (j % GMP_NUMB_BITS + 1) ≤ 2 ^ GMP_NUMB_BITS :=
      Nat.pow_le_pow_right (by decide) hr
    have hshift : (bit <<< (j % GMP_NUMB_BITS)) % 2 ^ GMP_NUMB_BITS
        = 2 ^ (j % GMP_NUMB_BITS) * bit := by
      rw [Nat.shiftLeft_eq, Nat.mul_comm]
      apply Nat.mod_eq_of_lt
      rw [pow_succ] at hpow
      nlinarith [Nat.two_pow_pos (j % GMP_NUMB_BITS)]
    have hor : b.data.getD (j / GMP_NUMB_BITS) 0 ||| 2 ^ (j % GMP_NUMB_BITS) * bit
        = b.data.getD (j / GMP_NUMB_BITS) 0 + bit * 2 ^ (j % GMP_NUMB_BITS) := by
      rw [Nat.or_comm, ← Nat.mul_add_lt_is_or hlimb]
      ring
    have hmod : (b.data.getD (j / GMP_NUMB_BITS) 0 + bit * 2 ^ (j % GMP_NUMB_BITS))
        % 2 ^ GMP_NUMB_BITS
        = b.data.getD (j / GMP_NUMB_BITS) 0 + bit * 2 ^ (j % GMP_NUMB_BITS) := by
      apply Nat.mod_eq_of_lt
      rw [pow_succ] at hpow
      nlinarith [Nat.two_pow_pos (j % GMP_NUMB_BITS)]
    have hset := bigint.limbs_to_nat_set b.data (j / GMP_NUMB_BITS)
      (b.data.getD (j / GMP_NUMB_BITS) 0 + bit * 2 ^ (j % GMP_NUMB_BITS)) hq
    unfold bigint.to_nat
    simp only [hshift, hor, hmod]
    rw [hj]
    rw [Nat.add_mul] at hset
    have e : bit * (2 ^ (j % GMP_NUMB_BITS) * 2 ^ (GMP_NUMB_BITS * (j / GMP_NUMB_BITS)))
        = bit * 2 ^ (j % GMP_NUMB_BITS) * 2 ^ (GMP_NUMB_BITS * (j / GMP_NUMB_BITS)) := by ring
    rw [e]
    omega
  · rw [if_neg hq] at h
    cases h

/-- A sum of bits at the weights `2^t`, `t < j`, is below `2^j`. -/
theorem sum_bits_lt (f : Nat → Nat) (hf : ∀ t, f t ≤ 1) (j : Nat) :
    Finset.sum (Finset.range j) (fun t => f t * 2 ^ t) < 2 ^ j := by
  induction j with
  | zero => simp
  | succ j ih =>
    rw [Finset.sum_range_succ, pow_succ]
    have := hf j
    nlinarith [Nat.two_pow_pos j]

/-- Whenever the bit-setting loop has a value after `j` iterations, it has
`num_limbs` limbs and stands for the sum of the bits set so far. -/
theorem or_bits_loop_eq (n : Nat) (f : Nat → Nat) (hf : ∀ t, f t ≤ 1) (j : Nat) :
    ∀ b : bigint, or_bits_loop n f j = some b →
      b.data.length = n ∧ b.to_nat = Finset.sum (Finset.range j) (fun t => f t * 2 ^ t) := by
  induction j with
  | zero =>
    intro b h
    simp only [or_bits_loop, Option.some.injEq] at h
    subst h
    exact ⟨by simp [bigint.zero], by simp [bigint.to_nat_zero]⟩
  | succ j ih =>
    intro b h
    rw [or_bits_loop] at h
    cases hprev : or_bits_loop n f j with
    | none => rw [hprev] at h; cases h
    | some b1 =>
      rw [hprev] at h
      simp only at h
      obtain ⟨hlen, hval⟩ := ih b1 hprev
      have hlt : b1.to_nat < 2 ^ j := by rw [hval]; exact sum_bits_lt f hf j
      obtain ⟨h1, h2⟩ := bigint.or_limb_bit b1 b j (f j) hlt (hf j) h
      exact ⟨by rw [h1, hlen], by rw [h2, hval, Finset.sum_range_succ]⟩

/-- Within the capacity of the limbs the bit-setting loop has a value. -/
theorem or_bits_loop_some (n : Nat) (f : Nat → Nat) (hf : ∀ t, f t ≤ 1) (j : Nat)
    (hj : j ≤ n * GMP_NUMB_BITS) : ∃ b : bigint, or_bits_loop n f j = some b := by
  induction j with
  | zero => exact ⟨_, rfl⟩
  | succ j ih =>
    obtain ⟨b1, hb1⟩ := ih (by omega)
    have hlen := (or_bits_loop_eq n f hf j b1 hb1).1
    rw [or_bits_loop, hb1]
    simp only [bigint.or_limb]
    have hq : j / GMP_NUMB_BITS < b1.data.length := by
      rw [hlen]
      exact Nat.div_lt_of_lt_mul (by rw [Nat.mul_comm]; omega)
    rw [if_pos hq]
    exact ⟨_, rfl⟩


/-- When every body has a value the outer loop collects them in order. -/
theorem pack_loop_eq_map {α : Type} (body : Nat → Option α) (g : Nat → α) (n : Nat)
    (h : ∀ i, i < n → body i = some (g i)) :
    pack_loop body n = some ((List.range n).map g) := by
  induction n with
  | zero => rfl
  | succ n ih =>
    rw [pack_loop, ih (fun i hi => h i (by omega)), h n (by omega)]
    simp [List.range_succ]

/-- For a positive divisor `div_ceil` is the ceiling of the quotient. -/
theorem div_ceil_eq_ceil (x y : Nat) (hy : 1 ≤ y) :
    div_ceil x y = some ⌈(x : ℚ) / (y : ℚ)⌉₊ := by
  unfold div_ceil
  rw [if_neg (by omega)]
  congr 1
  have hyq : (0 : ℚ) < (y : ℚ) := by exact_mod_cast hy
  apply le_antisymm
  · rw [Nat.div_le_iff_le_mul_add_pred (by omega)]
    have h1 : (x : ℚ) / y ≤ (⌈(x : ℚ) / (y : ℚ)⌉₊ : ℚ) := Nat.le_ceil _
    rw [div_le_iff₀ hyq] at h1
    have h2 : x ≤ ⌈(x : ℚ) / (y : ℚ)⌉₊ * y := by exact_mod_cast h1
    rw [Nat.mul_comm]
    omega
  · rw [Nat.ceil_le, div_le_iff₀ hyq]
    have h3 : x ≤ (x + (y - 1)) / y * y := by
      have := Nat.div_add_mod (x + (y - 1)) y
      have := Nat.mod_lt (x + (y - 1)) (show y > 0 by omega)
      rw [Nat.mul_comm]
      omega
    exact_mod_cast h3

/-- The inner loop of `pack_bit_vector_into_field_element_vector` is the
bit-setting loop on the bits `v[i * chunk_bits + t]`. -/
theorem pack_bit_vector_chunk_eq (n : Nat) (v : bit_vector) (c i j : Nat) :
    pack_bit_vector_chunk n v c i j
      = or_bits_loop n (fun t => (v.getD (i * c + t) false).toNat) j := by
  induction j with
  | zero => rfl
  | succ j ih =>
    rw [pack_bit_vector_chunk, or_bits_loop, ih]
    have : (if i * c + j < v.length ∧ v.getD (i * c + j) false = true then 1 else 0)
        = (v.getD (i * c + j) false).toNat := by
      by_cases h : i * c + j < v.length
      · cases hb : v.getD (i * c + j) false <;> simp [h]
      · have : v.getD (i * c + j) false = false := by
          rw [List.getD_eq_getElem?_getD, List.getElem?_eq_none (by omega)]; rfl
        rw [this, if_neg (fun hh => h hh.1)]; rfl
    simp only [this]

/-- The bit the code reads at position `P` of the word stream is `B P` for every
`B` that is the bitstream of `words`. -/
theorem word_bit_eq (words : List Nat) (w : Nat) (hw : 1 ≤ w) (B : Nat → Bool)
    (hB1 : ∀ i j, i < words.length → j < w → B (i * w + j) = (words.getD i 0).testBit j)
    (hB2 : ∀ P, words.length * w ≤ P → B P = false) (P : Nat) :
    ((if P / w < words.length then words.getD (P / w) 0 else 0) >>> (P % w)) &&& 1
      = (B P).toNat := by
  rw [Nat.and_one_is_mod]
  by_cases h : P / w < words.length
  · rw [if_pos h]
    have := hB1 (P / w) (P % w) h (Nat.mod_lt _ (by omega))
    rw [Nat.div_add_mod' P w] at this
    rw [this, Nat.shiftRight_eq_div_pow, ← Nat.toNat_testBit]
  · rw [if_neg h]
    have hP : words.length * w ≤ P := by
      have := (Nat.le_div_iff_mul_le (show 0 < w by omega)).1 (Nat.le_of_not_lt h)
      exact this
    rw [hB2 P hP]
    simp

/-- For a nonzero width the inner loop of
`pack_int_vector_into_field_element_vector` is the bit-setting loop on the bits
the code reads from the words. -/
theorem pack_int_vector_chunk_eq_code (n : Nat) (words : List Nat) (w : Nat) (hw : 1 ≤ w)
    (c i j : Nat) :
    pack_int_vector_chunk n words w c i j
      = or_bits_loop n (fun t =>
          ((if (i * c + t) / w < words.length then words.getD ((i * c + t) / w) 0 else 0)
            >>> ((i * c + t) % w)) &&& 1) j := by
  induction j with
  | zero => rfl
  | succ j ih =>
    rw [pack_int_vector_chunk, or_bits_loop, ih]
    simp only [if_neg (show ¬ w = 0 by omega)]

/-- For a nonzero width the inner loop of
`pack_int_vector_into_field_element_vector` is the bit-setting loop on the bits
of the word stream `B`. -/
theorem pack_int_vector_chunk_eq (n : Nat) (words : List Nat) (w : Nat) (hw : 1 ≤ w)
    (B : Nat → Bool)
    (hB1 : ∀ i j, i < words.length → j < w → B (i * w + j) = (words.getD i 0).testBit j)
    (hB2 : ∀ P, words.length * w ≤ P → B P = false) (c i j : Nat) :
    pack_int_vector_chunk n words w c i j
      = or_bits_loop n (fun t => (B (i * c + t)).toNat) j := by
  rw [pack_int_vector_chunk_eq_code n words w hw]
  congr 1
  funext t
  exact word_bit_eq words w hw B hB1 hB2 (i * c + t)

/-- With width zero the inner loop has no value after its first iteration. -/
theorem pack_int_vector_chunk_zero_width (n : Nat) (words : List Nat) (c i j : Nat) :
    pack_int_vector_chunk n words 0 c i (j + 1) = none := by
  rw [pack_int_vector_chunk]
  cases pack_int_vector_chunk n words 0 c i j <;> simp

/-- The value of a Boolean as a number is at most 1. -/
theorem bool_toNat_le_one (b : Bool) : b.toNat ≤ 1 := by cases b <;> simp


/-- The bit-setting loop over Boolean bits, run within the capacity of the
limbs, yields a big integer standing for the sum of the bits. -/
theorem or_bits_loop_bool (n : Nat) (g : Nat → Bool) (j : Nat) (hj : j ≤ n * GMP_NUMB_BITS) :
    ∃ b : bigint, or_bits_loop n (fun t => (g t).toNat) j = some b ∧
      b.to_nat = Finset.sum (Finset.range j) (fun t => (g t).toNat * 2 ^ t) := by
  obtain ⟨b, hb⟩ := or_bits_loop_some n (fun t => (g t).toNat) (fun t => bool_toNat_le_one _) j hj
  exact ⟨b, hb, (or_bits_loop_eq n _ (fun t => bool_toNat_le_one _) j b hb).2⟩

/-- The result of `pack_bit_vector_into_field_element_vector` in closed form. -/
theorem pack_bit_vector_eq {p : Nat} (C : FieldT_consts (ZMod p)) (bits : bit_vector) (c : Nat)
    (hc1 : 1 ≤ c) (hc2 : c ≤ C.num_bits - 1) (hlimbs : C.num_bits ≤ C.num_limbs * GMP_NUMB_BITS) :
    pack_bit_vector_into_field_element_vector C bits c
      = some ((List.range ⌈(bits.length : ℚ) / (c : ℚ)⌉₊).map (fun k =>
          ((Finset.sum (Finset.range c)
            (fun j => (bits.getD (k * c + j) false).toNat * 2 ^ j) : ℕ) : ZMod p))) := by
  unfold pack_bit_vector_into_field_element_vector
  rw [if_pos hc2, div_ceil_eq_ceil _ _ hc1]
  apply pack_loop_eq_map
  intro i _
  rw [pack_bit_vector_chunk_eq]
  obtain ⟨b, hb, hval⟩ := or_bits_loop_bool C.num_limbs (fun t => bits.getD (i * c + t) false) c
    (by omega)
  rw [hb, Option.map_some', FieldT_of_bigint, hval]

/-- The result of `pack_int_vector_into_field_element_vector` in closed form. -/
theorem pack_int_vector_eq {p : Nat} (C : FieldT_consts (ZMod p)) (words : List Nat) (w : Nat)
    (hw : 1 ≤ w) (hnb : 2 ≤ C.num_bits) (hlimbs : C.num_bits ≤ C.num_limbs * GMP_NUMB_BITS)
    (B : Nat → Bool)
    (hB1 : ∀ i j, i < words.length → j < w → B (i * w + j) = (words.getD i 0).testBit j)
    (hB2 : ∀ P, words.length * w ≤ P → B P = false) :
    pack_int_vector_into_field_element_vector C words w
      = some ((List.range ⌈((words.length * w : ℕ) : ℚ) / ((C.num_bits - 1 : ℕ) : ℚ)⌉₊).map
          (fun k => ((Finset.sum (Finset.range (C.num_bits - 1))
            (fun j => (B (k * (C.num_bits - 1) + j)).toNat * 2 ^ j) : ℕ) : ZMod p))) := by
  unfold pack_int_vector_into_field_element_vector
  simp only []
  rw [div_ceil_eq_ceil _ _ (by omega)]
  apply pack_loop_eq_map
  intro i _
  rw [pack_int_vector_chunk_eq C.num_limbs words w hw B hB1 hB2]
  obtain ⟨b, hb, hval⟩ := or_bits_loop_bool C.num_limbs
    (fun t => B (i * (C.num_bits - 1) + t)) (C.num_bits - 1) (by omega)
  rw [hb, Option.map_some', FieldT_of_bigint, hval]


/-- C5: for every word sequence and every width `1 ≤ w ≤` machine word width,
`pack_int_vector_into_field_element_vector(words, w)` returns exactly
`ceil(words.length * w / chunk_bits)` elements, `chunk_bits = num_bits - 1`, and
element `k` is the field element of `Σ_{j < chunk_bits} B(k*chunk_bits + j) * 2^j`
for the bitstream `B` of the words (`B(i*w + j)` is bit `j` of `words[i]` for
`j < w`, and `B` is zero from `words.length * w` on); the bits of a word at
positions `≥ w` do not influence the output. -/
theorem pack_int_vector_correct {p : Nat} (C : FieldT_consts (ZMod p)) (words : List Nat)
    (w : Nat) (hw : 1 ≤ w) (_hword : w ≤ SIZE_T_BITS) (hnb : 2 ≤ C.num_bits)
    (hlimbs : C.num_bits ≤ C.num_limbs * GMP_NUMB_BITS) (B : Nat → Bool)
    (hB1 : ∀ i j, i < words.length → j < w → B (i * w + j) = (words.getD i 0).testBit j)
    (hB2 : ∀ P, words.length * w ≤ P → B P = false) :
    ∃ r : List (ZMod p), pack_int_vector_into_field_element_vector C words w = some r ∧
      r.length = ⌈((words.length * w : ℕ) : ℚ) / ((C.num_bits - 1 : ℕ) : ℚ)⌉₊ ∧
      (∀ (k : Nat) (hk : k < r.length),
        r[k] = ((Finset.sum (Finset.range (C.num_bits - 1))
          (fun j => (B (k * (C.num_bits - 1) + j)).toNat * 2 ^ j) : ℕ) : ZMod p)) ∧
      (∀ words2 : List Nat, words2.length = words.length →
        (∀ i, words2.getD i 0 % 2 ^ w = words.getD i 0 % 2 ^ w) →
        pack_int_vector_into_field_element_vector C words2 w = some r) := by
  refine ⟨_, pack_int_vector_eq C words w hw hnb hlimbs B hB1 hB2, by simp, ?_, ?_⟩
  · intro k hk
    simp
  · intro words2 hlen hlow
    have h := pack_int_vector_eq C words2 w hw hnb hlimbs B
      (by
        intro i j hi hj
        rw [hB1 i j (by omega) hj]
        have h1 := Nat.testBit_mod_two_pow (words.getD i 0) w j
        have h2 := Nat.testBit_mod_two_pow (words2.getD i 0) w j
        rw [hlow i, h1] at h2
        simp only [hj, decide_True, Bool.true_and] at h2
        exact h2)
      (by rw [hlen]; exact hB2)
    rw [h, hlen]

/-- C5, witness: over the field of modulus 7 (`chunk_bits = 2`) the words
`[5, 6, 255]` at width 3 form the stream `1,0,1, 0,1,1, 1,1,1` and are packed
into `ceil(9 / 2) = 5` elements. -/
theorem pack_int_vector_correct_witness :
    pack_int_vector_into_field_element_vector F7_consts [5, 6, 255] 3 = some [1, 1, 3, 3, 1] ∧
      ∃ r : List (ZMod 7),
        pack_int_vector_into_field_element_vector F7_consts [5, 6, 255] 3 = some r ∧
        r.length = ⌈(((([5, 6, 255] : List Nat).length * 3 : ℕ) : ℚ)) /
          ((F7_consts.num_bits - 1 : ℕ) : ℚ)⌉₊ := by
  refine ⟨by decide, ?_⟩
  obtain ⟨r, h1, h2, _⟩ := pack_int_vector_correct F7_consts [5, 6, 255] 3 (by decide)
    (by decide) (by decide) (by decide)
    (fun P => if P / 3 < 3 then (([5, 6, 255] : List Nat).getD (P / 3) 0).testBit (P % 3)
      else false)
    (by
      intro i j hi hj
      have hi3 : i < 3 := hi
      have e1 : (i * 3 + j) / 3 = i := by omega
      have e2 : (i * 3 + j) % 3 = j := by omega
      simp only [e1, e2, if_pos hi3])
    (by
      intro P hP
      have hP9 : 3 * 3 ≤ P := hP
      have : ¬ P / 3 < 3 := by omega
      simp only [if_neg this])
  exact ⟨r, h1, h2⟩

/-- C6: for every bit sequence and every `1 ≤ chunk_bits ≤ num_bits - 1`,
`pack_bit_vector_into_field_element_vector(bits, chunk_bits)` returns
`ceil(bits.length / chunk_bits)` elements and element `k` is the field element
of `Σ_{j < chunk_bits} bit(k*chunk_bits + j) * 2^j`, with `bit(q) = bits[q]`
inside the sequence and 0 beyond; the one-argument overload is the call with
`chunk_bits = num_bits - 1`. -/
theorem pack_bit_vector_correct {p : Nat} (C : FieldT_consts (ZMod p)) (bits : bit_vector)
    (c : Nat) (hc1 : 1 ≤ c) (hc2 : c ≤ C.num_bits - 1)
    (hlimbs : C.num_bits ≤ C.num_limbs * GMP_NUMB_BITS) :
    ∃ r : List (ZMod p), pack_bit_vector_into_field_element_vector C bits c = some r ∧
      r.length = ⌈(bits.length : ℚ) / (c : ℚ)⌉₊ ∧
      (∀ (k : Nat) (hk : k < r.length),
        r[k] = ((Finset.sum (Finset.range c)
          (fun j => (bits.getD (k * c + j) false).toNat * 2 ^ j) : ℕ) : ZMod p)) ∧
      pack_bit_vector_into_field_element_vector_default C bits
        = pack_bit_vector_into_field_element_vector C bits (C.num_bits - 1) := by
  refine ⟨_, pack_bit_vector_eq C bits c hc1 hc2 hlimbs, by simp, ?_, rfl⟩
  intro k hk
  simp

/-- C6, witness: over the field of modulus 7 the bits `1,0,1,1,1` in chunks of 2
are packed into `[1, 3, 1]`. -/
theorem pack_bit_vector_correct_witness :
    pack_bit_vector_into_field_element_vector F7_consts [true, false, true, true, true] 2
        = some [1, 3, 1] ∧
      ∃ r : List (ZMod 7),
        pack_bit_vector_into_field_element_vector F7_consts [true, false, true, true, true] 2
          = some r ∧
        r.length = ⌈(([true, false, true, true, true] : bit_vector).length : ℚ) / ((2 : ℕ) : ℚ)⌉₊ := by
  refine ⟨by decide, ?_⟩
  obtain ⟨r, h1, h2, _⟩ := pack_bit_vector_correct F7_consts [true, false, true, true, true] 2
    (by decide) (by decide) (by decide)
  exact ⟨r, h1, h2⟩

/-- C7, as stated, fails: `chunk_bits = 0` passes the assertion
`chunk_bits <= num_bits - 1`, and then `div_ceil(v.size(), 0)` divides by zero:
no sequence is returned. -/
theorem pack_bit_vector_length_counterexample :
    0 ≤ F7_consts.num_bits - 1 ∧
      pack_bit_vector_into_field_element_vector F7_consts [true] 0 = none := by
  decide

/-- C7, amended: for all bit sequences `b` and every `chunk_bits` with
`1 ≤ chunk_bits ≤ num_bits - 1`, `pack_bit_vector_into_field_element_vector`
returns a sequence of length exactly `ceil(b.length / chunk_bits)`. -/
theorem pack_bit_vector_length {p : Nat} (C : FieldT_consts (ZMod p)) (b : bit_vector)
    (c : Nat) (hc1 : 1 ≤ c) (hc2 : c ≤ C.num_bits - 1)
    (hlimbs : C.num_bits ≤ C.num_limbs * GMP_NUMB_BITS) :
    ∃ r : List (ZMod p), pack_bit_vector_into_field_element_vector C b c = some r ∧
      r.length = ⌈(b.length : ℚ) / (c : ℚ)⌉₊ :=
  ⟨_, pack_bit_vector_eq C b c hc1 hc2 hlimbs, by simp⟩

/-- C7, witness of the amended statement: five bits in chunks of 2 over the
field of modulus 7 give `ceil(5 / 2)` elements. -/
theorem pack_bit_vector_length_witness :
    1 ≤ 2 ∧ 2 ≤ F7_consts.num_bits - 1 ∧
      F7_consts.num_bits ≤ F7_consts.num_limbs * GMP_NUMB_BITS ∧
      ∃ r : List (ZMod 7),
        pack_bit_vector_into_field_element_vector F7_consts [true, false, true, true, true] 2
          = some r ∧
        r.length = ⌈(([true, false, true, true, true] : bit_vector).length : ℚ) / ((2 : ℕ) : ℚ)⌉₊ :=
  ⟨by decide, by decide, by decide,
    pack_bit_vector_length F7_consts [true, false, true, true, true] 2 (by decide) (by decide)
      (by decide)⟩

/-- C8: when `2^(num_bits - 1) ≤ modulus`, every big integer the two packing
routines hand to the field constructor (the final state of the inner loop, for
any output index) is below `2^chunk_bits`, hence below the modulus, and the
canonical representative of the packed element is that integer itself. -/
theorem pack_values_lt_modulus {p : Nat} (C : FieldT_consts (ZMod p))
    (hmod : 2 ^ (C.num_bits - 1) ≤ p) :
    (∀ (words : List Nat) (w i : Nat) (b : bigint),
      pack_int_vector_chunk C.num_limbs words w (C.num_bits - 1) i (C.num_bits - 1) = some b →
        b.to_nat < 2 ^ (C.num_bits - 1) ∧ b.to_nat < p ∧
        ZMod.val (FieldT_of_bigint p b) = b.to_nat) ∧
    (∀ (bits : bit_vector) (c i : Nat) (b : bigint), c ≤ C.num_bits - 1 →
      pack_bit_vector_chunk C.num_limbs bits c i c = some b →
        b.to_nat < 2 ^ c ∧ b.to_nat < p ∧ ZMod.val (FieldT_of_bigint p b) = b.to_nat) := by
  have key : ∀ (c : Nat) (b : bigint), c ≤ C.num_bits - 1 → b.to_nat < 2 ^ c →
      b.to_nat < 2 ^ c ∧ b.to_nat < p ∧ ZMod.val (FieldT_of_bigint p b) = b.to_nat := by
    intro c b hc hb
    have hp : b.to_nat < p :=
      lt_of_lt_of_le hb (le_trans (Nat.pow_le_pow_right (by decide) hc) hmod)
    exact ⟨hb, hp, ZMod.val_natCast_of_lt hp⟩
  constructor
  · intro words w i b h
    apply key _ b (le_refl _)
    by_cases hw : w = 0
    · subst hw
      cases hc : C.num_bits - 1 with
      | zero =>
        rw [hc] at h
        simp only [pack_int_vector_chunk, Option.some.injEq] at h
        subst h
        simp [bigint.to_nat_zero]
      | succ j =>
        rw [hc, pack_int_vector_chunk_zero_width] at h
        cases h
    · rw [pack_int_vector_chunk_eq_code C.num_limbs words w (by omega)] at h
      have hf : ∀ t, ((if (i * (C.num_bits - 1) + t) / w < words.length
          then words.getD ((i * (C.num_bits - 1) + t) / w) 0 else 0)
            >>> ((i * (C.num_bits - 1) + t) % w)) &&& 1 ≤ 1 := by
        intro t
        rw [Nat.and_one_is_mod]
        omega
      rw [(or_bits_loop_eq _ _ hf _ b h).2]
      exact sum_bits_lt _ hf _
  · intro bits c i b hc h
    apply key c b hc
    rw [pack_bit_vector_chunk_eq] at h
    rw [(or_bits_loop_eq _ _ (fun t => bool_toNat_le_one _) _ b h).2]
    exact sum_bits_lt _ (fun t => bool_toNat_le_one _) _

/-- C8, witness: over the field of modulus 7 (`2^2 ≤ 7`) the second chunk of the
bits `1,0,1,1,1` is the integer 3, below `2^2` and below 7, and it is the
canonical representative of the packed element. -/
theorem pack_values_lt_modulus_witness :
    2 ^ (F7_consts.num_bits - 1) ≤ 7 ∧
      pack_bit_vector_chunk F7_consts.num_limbs [true, false, true, true, true] 2 1 2
        = some ⟨[3]⟩ ∧
      (bigint.to_nat ⟨[3]⟩ < 2 ^ 2 ∧ bigint.to_nat ⟨[3]⟩ < 7 ∧
        ZMod.val (FieldT_of_bigint 7 ⟨[3]⟩) = bigint.to_nat ⟨[3]⟩) :=
  ⟨by decide, by decide,
    (pack_values_lt_modulus F7_consts (by decide)).2 [true, false, true, true, true] 2 1 ⟨[3]⟩
      (by decide) (by decide)⟩

/-! ## One field element for each bit -/

section vector_proofs
variable {F : Type} [Field F] [DecidableEq F]

/-- When every element is zero or one the collapse returns, entry by entry, whether
the element is one. -/
theorem convert_field_element_vector_to_bit_vector_eq (v : List F)
    (h : ∀ el ∈ v, el = 1 ∨ el = 0) :
    convert_field_element_vector_to_bit_vector v = some (v.map (fun el => decide (el = 1))) := by
  induction v with
  | nil => rfl
  | cons el rest ih =>
    rw [convert_field_element_vector_to_bit_vector, if_pos (h el (List.mem_cons_self _ _)),
      ih (fun x hx => h x (List.mem_cons_of_mem _ hx))]
    rfl

/-- An element that is neither zero nor one makes the collapse fail. -/
theorem convert_field_element_vector_to_bit_vector_none (v : List F)
    (h : ∃ el ∈ v, ¬ (el = 1 ∨ el = 0)) :
    convert_field_element_vector_to_bit_vector v = none := by
  induction v with
  | nil => simp at h
  | cons el rest ih =>
    rw [convert_field_element_vector_to_bit_vector]
    by_cases hel : el = 1 ∨ el = 0
    · rw [if_pos hel]
      obtain ⟨x, hx, hx2⟩ := h
      rcases List.mem_cons.1 hx with e | e
      · exact absurd (e ▸ hel) hx2
      · rw [ih ⟨x, e, hx2⟩]
    · rw [if_neg hel]

/-- C11: `convert_field_element_vector_to_bit_vector` undoes
`convert_bit_vector_to_field_element_vector`: for every bit sequence `b` the
expansion has one element per bit, `one` for true and `zero` for false in the same
order, and collapsing it succeeds and returns `b` (zero and one differ in a
field). -/
theorem convert_vector_roundtrip (b : bit_vector) :
    convert_field_element_vector_to_bit_vector
        (convert_bit_vector_to_field_element_vector b : List F) = some b ∧
      (convert_bit_vector_to_field_element_vector b : List F).length = b.length ∧
      ∀ (i : Nat) (hi : i < b.length)
        (hr : i < (convert_bit_vector_to_field_element_vector b : List F).length),
        (convert_bit_vector_to_field_element_vector b : List F)[i]
          = if b[i] = true then (1 : F) else 0 := by
  refine ⟨?_, by simp [convert_bit_vector_to_field_element_vector], ?_⟩
  · rw [convert_field_element_vector_to_bit_vector_eq]
    · simp only [convert_bit_vector_to_field_element_vector, List.map_map]
      conv_rhs => rw [← List.map_id b]
      congr 1
      apply List.map_congr_left
      intro x _
      cases x <;> simp
    · intro el hel
      simp only [convert_bit_vector_to_field_element_vector, List.mem_map] at hel
      obtain ⟨x, _, rfl⟩ := hel
      cases x <;> simp
  · intro i hi hr
    simp [convert_bit_vector_to_field_element_vector]

/-- C15: `convert_field_element_vector_to_bit_vector(v)` fails exactly when some
element of `v` is neither zero nor one; when every element is zero or one it
returns a bit sequence of the same length whose entry `i` is true exactly when
`v[i]` is one. -/
theorem convert_field_element_vector_to_bit_vector_spec (v : List F) :
    (convert_field_element_vector_to_bit_vector v = none ↔ ∃ el ∈ v, el ≠ 0 ∧ el ≠ 1) ∧
      ((∀ el ∈ v, el = 0 ∨ el = 1) →
        ∃ bits : bit_vector, convert_field_element_vector_to_bit_vector v = some bits ∧
          bits.length = v.length ∧
          ∀ (i : Nat) (hi : i < v.length) (hb : i < bits.length),
            (bits[i] = true ↔ v[i] = 1)) := by
  constructor
  · constructor
    · intro hnone
      by_contra hall
      have h01 : ∀ el ∈ v, el = 1 ∨ el = 0 := by
        intro el hel
        by_contra hne
        exact hall ⟨el, hel, fun h0 => hne (Or.inr h0), fun h1 => hne (Or.inl h1)⟩
      rw [convert_field_element_vector_to_bit_vector_eq v h01] at hnone
      cases hnone
    · rintro ⟨el, hel, h0, h1⟩
      exact convert_field_element_vector_to_bit_vector_none v
        ⟨el, hel, fun h => h.elim h1 h0⟩
  · intro hall
    refine ⟨_, convert_field_element_vector_to_bit_vector_eq v
      (fun el hel => (hall el hel).symm), by simp, ?_⟩
    intro i hi hb
    simp

end vector_proofs

/-- C15, witness: over the field of modulus 7, `[1,0,1]` collapses to
`[true,false,true]` and `[1,2]` (2 is neither zero nor one) fails. -/
theorem convert_field_element_vector_to_bit_vector_spec_witness :
    convert_field_element_vector_to_bit_vector ([1, 0, 1] : List (ZMod 7))
        = some [true, false, true] ∧
      convert_field_element_vector_to_bit_vector ([1, 2] : List (ZMod 7)) = none := by
  refine ⟨by decide, ?_⟩
  exact (convert_field_element_vector_to_bit_vector_spec ([1, 2] : List (ZMod 7))).1.2
    ⟨2, by decide, by decide, by decide⟩

/-- C11, witness: over the field of modulus 7 the bits `[true,false,true]`
expand to `[1,0,1]` and collapse back. -/
theorem convert_vector_roundtrip_witness :
    (convert_bit_vector_to_field_element_vector [true, false, true] : List (ZMod 7))
        = [1, 0, 1] ∧
      convert_field_element_vector_to_bit_vector
        (convert_bit_vector_to_field_element_vector [true, false, true] : List (ZMod 7))
        = some [true, false, true] :=
  ⟨by decide, (convert_vector_roundtrip [true, false, true]).1⟩

/-! ## The naive weighted sum -/

section naive_proofs
variable {F : Type} {T : Type} [Add T] [HMul T F T]

/-- The loop of `naive_plain_exp` has a value exactly when the scalars do not run
out; it then holds the left-to-right accumulation over the aligned pairs and the
scalars not consumed. -/
theorem naive_plain_exp_loop_eq (vec : List T) : ∀ (scalars : List F) (result : T),
    naive_plain_exp_loop vec scalars result
      = if vec.length ≤ scalars.length then
          some ((vec.zip scalars).foldl (fun acc gs => acc + gs.1 * gs.2) result,
            scalars.drop vec.length)
        else none := by
  induction vec with
  | nil => intro scalars result; simp [naive_plain_exp_loop]
  | cons g vec ih =>
    intro scalars result
    cases scalars with
    | nil => simp [naive_plain_exp_loop]
    | cons x scalars =>
      rw [naive_plain_exp_loop, ih]
      simp

/-- With sequences of equal length `naive_plain_exp` returns the left-to-right
accumulation. -/
theorem naive_plain_exp_eq (neutral : T) (vec : List T) (scalars : List F)
    (h : vec.length = scalars.length) :
    naive_plain_exp neutral vec scalars
      = some ((vec.zip scalars).foldl (fun acc gs => acc + gs.1 * gs.2) neutral) := by
  unfold naive_plain_exp
  rw [naive_plain_exp_loop_eq, if_pos (by omega), h, List.drop_length]

/-- With sequences of different lengths `naive_plain_exp` returns nothing. -/
theorem naive_plain_exp_none (neutral : T) (vec : List T) (scalars : List F)
    (h : vec.length ≠ scalars.length) :
    naive_plain_exp neutral vec scalars = none := by
  unfold naive_plain_exp
  rw [naive_plain_exp_loop_eq]
  by_cases hle : vec.length ≤ scalars.length
  · rw [if_pos hle]
    have hlt : 0 < (scalars.drop vec.length).length := by
      rw [List.length_drop]; omega
    cases hd : scalars.drop vec.length with
    | nil => rw [hd] at hlt; simp at hlt
    | cons y rest => rfl
  · rw [if_neg hle]

/-- C13: for every neutral element and sequences `g`, `s` of the same length `n`,
`naive_plain_exp(neutral, g, s)` returns the left-to-right accumulation
`(...((neutral + g[0]*s[0]) + g[1]*s[1]) + ...) + g[n-1]*s[n-1]`; with empty
sequences it returns `neutral`. -/
theorem naive_plain_exp_correct (neutral : T) (g : List T) (s : List F)
    (h : g.length = s.length) :
    naive_plain_exp neutral g s
        = some ((g.zip s).foldl (fun acc gs => acc + gs.1 * gs.2) neutral) ∧
      naive_plain_exp neutral ([] : List T) ([] : List F) = some neutral :=
  ⟨naive_plain_exp_eq neutral g s h, rfl⟩

/-- C17: for input sequences whose lengths differ (scalars shorter or longer
than the group elements) `naive_plain_exp` returns no value; it returns a value
exactly when the two sequences have equal length. -/
theorem naive_plain_exp_returns_iff (neutral : T) (g : List T) (s : List F) :
    (g.length ≠ s.length → naive_plain_exp neutral g s = none) ∧
      ((∃ r : T, naive_plain_exp neutral g s = some r) ↔ g.length = s.length) := by
  refine ⟨naive_plain_exp_none neutral g s, ?_, fun h => ⟨_, naive_plain_exp_eq neutral g s h⟩⟩
  rintro ⟨r, hr⟩
  by_contra hne
  rw [naive_plain_exp_none neutral g s hne] at hr
  cases hr

end naive_proofs

/-- C13, witness: with group and scalars both the field of modulus 7,
`naive_plain_exp(0, [1,2], [3,4]) = (0 + 1*3) + 2*4 = 4`. -/
theorem naive_plain_exp_correct_witness :
    ([1, 2] : List (ZMod 7)).length = ([3, 4] : List (ZMod 7)).length ∧
      naive_plain_exp (0 : ZMod 7) [1, 2] ([3, 4] : List (ZMod 7)) = some ((0 + 1 * 3) + 2 * 4) :=
  ⟨rfl, (naive_plain_exp_correct (0 : ZMod 7) [1, 2] ([3, 4] : List (ZMod 7)) rfl).1⟩

/-- C17, witness: over the field of modulus 7, scalars shorter (`[3]`) or longer
(`[3,4,5]`) than the elements `[1,2]` give no value, equal lengths give one. -/
theorem naive_plain_exp_returns_iff_witness :
    naive_plain_exp (0 : ZMod 7) [1, 2] ([3] : List (ZMod 7)) = none ∧
      naive_plain_exp (0 : ZMod 7) [1, 2] ([3, 4, 5] : List (ZMod 7)) = none ∧
      ∃ r : ZMod 7, naive_plain_exp (0 : ZMod 7) [1, 2] ([3, 4] : List (ZMod 7)) = some r :=
  ⟨(naive_plain_exp_returns_iff (0 : ZMod 7) [1, 2] ([3] : List (ZMod 7))).1 (by decide),
    (naive_plain_exp_returns_iff (0 : ZMod 7) [1, 2] ([3, 4, 5] : List (ZMod 7))).1 (by decide),
    (naive_plain_exp_returns_iff (0 : ZMod 7) [1, 2] ([3, 4] : List (ZMod 7))).2.2 rfl⟩

/-! ## Failure of batch inversion -/

section batch_invert_failure
variable {F : Type} [Field F] [DecidableEq F]

/-- C14: when the input holds a zero element `batch_invert` returns nothing and
the failure comes from the first loop, before the second loop (the only writer)
has started: the content of the sequence at the point of failure is the input
itself; when no element is zero it does not fail. -/
theorem batch_invert_fails_iff (v : List F) :
    ((∃ x ∈ v, x = 0) → batch_invert v = none ∧ batch_invert_forward v ([], 1) = none ∧
        batch_invert_mem v = (v, false)) ∧
      ((∀ x ∈ v, x ≠ 0) → ∃ r : List F, batch_invert v = some r ∧
        batch_invert_mem v = (r, true)) := by
  constructor
  · intro hz
    have h := batch_invert_forward_zero v hz ([], 1)
    refine ⟨?_, h, ?_⟩
    · unfold batch_invert; rw [h]
    · unfold batch_invert_mem; rw [h]
  · intro hnz
    have h := batch_invert_eq_map_inv v hnz
    refine ⟨_, h, ?_⟩
    unfold batch_invert at h
    unfold batch_invert_mem
    rw [batch_invert_forward_eq v hnz] at h ⊢
    simp only [Option.some.injEq] at h
    simp only [h]

end batch_invert_failure

/-- C14, witness: over the field of modulus 7 the input `[2,0,4]` makes
`batch_invert` fail with the sequence still `[2,0,4]`, and `[2,3,4]` does not
fail. -/
theorem batch_invert_fails_iff_witness :
    (batch_invert ([2, 0, 4] : List (ZMod 7)) = none ∧
        batch_invert_forward ([2, 0, 4] : List (ZMod 7)) ([], 1) = none ∧
        batch_invert_mem ([2, 0, 4] : List (ZMod 7)) = ([2, 0, 4], false)) ∧
      ∃ r : List (ZMod 7), batch_invert ([2, 3, 4] : List (ZMod 7)) = some r ∧
        batch_invert_mem ([2, 3, 4] : List (ZMod 7)) = (r, true) :=
  ⟨(batch_invert_fails_iff ([2, 0, 4] : List (ZMod 7))).1 ⟨0, by decide, rfl⟩,
    (batch_invert_fails_iff ([2, 3, 4] : List (ZMod 7))).2 (by decide)⟩

/-! ## Bit decomposition -/

/-- Below the capacity of the limbs, `as_bigint` holds the bits of the canonical
representative. -/
theorem test_bit_as_bigint {p : Nat} [Fact p.Prime] (C : FieldT_consts (ZMod p)) (el : ZMod p)
    (hlimbs : p ≤ 2 ^ (C.num_limbs * GMP_NUMB_BITS)) (i : Nat) :
    (as_bigint C el).test_bit i = (ZMod.val el).testBit i := by
  unfold as_bigint
  rw [bigint.test_bit_of_nat]
  by_cases hi : i < C.num_limbs * GMP_NUMB_BITS
  · simp [hi]
  · have hlt : ZMod.val el < 2 ^ i :=
      lt_of_lt_of_le (ZMod.val_lt el)
        (le_trans hlimbs (Nat.pow_le_pow_right (by decide) (by omega)))
    rw [Nat.testBit_lt_two_pow hlt]
    simp [hi]

/-- The decomposition as the list of the bits of the canonical representative. -/
theorem convert_field_element_to_bit_vector_eq {p : Nat} [Fact p.Prime]
    (C : FieldT_consts (ZMod p)) (el : ZMod p)
    (hlimbs : p ≤ 2 ^ (C.num_limbs * GMP_NUMB_BITS)) :
    convert_field_element_to_bit_vector C el
      = (List.range C.size_in_bits).map (fun i => (ZMod.val el).testBit i) := by
  unfold convert_field_element_to_bit_vector
  simp only [test_bit_as_bigint C el hlimbs]

/-- C12: for every element `el` of a prime field (whose modulus fits its limbs),
`convert_field_element_to_bit_vector(el)` has exactly `size_in_bits` entries and
entry `i` is bit `i`, least significant first, of the canonical representative;
for every `bitcount ≤ size_in_bits` the overload with `bitcount` returns exactly
`bitcount` entries, the first `bitcount` entries of the full decomposition. -/
theorem convert_field_element_to_bit_vector_spec {p : Nat} [Fact p.Prime]
    (C : FieldT_consts (ZMod p)) (el : ZMod p)
    (hlimbs : p ≤ 2 ^ (C.num_limbs * GMP_NUMB_BITS)) :
    (convert_field_element_to_bit_vector C el).length = C.size_in_bits ∧
      (∀ (i : Nat) (hi : i < (convert_field_element_to_bit_vector C el).length),
        (convert_field_element_to_bit_vector C el)[i] = (ZMod.val el).testBit i) ∧
      (∀ bitcount : Nat, bitcount ≤ C.size_in_bits →
        ∃ r : bit_vector, convert_field_element_to_bit_vector_count C el bitcount = some r ∧
          r.length = bitcount ∧
          r = (convert_field_element_to_bit_vector C el).take bitcount) := by
  have hlen : (convert_field_element_to_bit_vector C el).length = C.size_in_bits := by
    simp [convert_field_element_to_bit_vector]
  refine ⟨hlen, ?_, ?_⟩
  · intro i hi
    simp only [convert_field_element_to_bit_vector_eq C el hlimbs, List.getElem_map,
      List.getElem_range]
  · intro bitcount hb
    refine ⟨_, ?_, ?_, rfl⟩
    · unfold convert_field_element_to_bit_vector_count
      simp only [hlen, if_pos hb]
    · rw [List.length_take, hlen]
      omega

/-- C12, witness: over the field of modulus 7 the element 6 decomposes into
`[0,1,1]`, and with `bitcount = 2` into `[0,1]`. -/
theorem convert_field_element_to_bit_vector_spec_witness :
    7 ≤ 2 ^ (F7_consts.num_limbs * GMP_NUMB_BITS) ∧
      convert_field_element_to_bit_vector F7_consts 6 = [false, true, true] ∧
      convert_field_element_to_bit_vector_count F7_consts 6 2 = some [false, true] ∧
      (convert_field_element_to_bit_vector F7_consts 6).length = F7_consts.size_in_bits := by
  refine ⟨by decide, by decide, by decide, ?_⟩
  exact (convert_field_element_to_bit_vector_spec F7_consts 6 (by decide)).1

/-- The bits `0, ..., n-1` of a number encode its remainder modulo `2^n`. -/
theorem bits_to_nat_testBit_range (x n : Nat) :
    bits_to_nat ((List.range n).map (fun i => x.testBit i)) = x % 2 ^ n := by
  apply Nat.eq_of_testBit_eq
  intro i
  rw [testBit_bits_to_nat, Nat.testBit_mod_two_pow, List.getD_eq_getElem?_getD]
  by_cases hi : i < n
  · simp [hi, List.getElem?_range]
  · rw [List.getElem?_eq_none (by simp; omega)]
    simp [hi]

/-- C19: for every element `el` of a prime field with `size_in_bits ≤ num_bits`
(the modulus fitting in `size_in_bits` bits and in its limbs),
`convert_bit_vector_to_field_element(convert_field_element_to_bit_vector(el))`
passes the length assertion and returns `el`. -/
theorem decompose_reconstruct {p : Nat} [Fact p.Prime] (C : FieldT_consts (ZMod p))
    (el : ZMod p) (hle : C.size_in_bits ≤ C.num_bits) (hsize : p ≤ 2 ^ C.size_in_bits)
    (hlimbs : p ≤ 2 ^ (C.num_limbs * GMP_NUMB_BITS)) :
    (convert_field_element_to_bit_vector C el).length ≤ C.num_bits ∧
      convert_bit_vector_to_field_element C (convert_field_element_to_bit_vector C el)
        = some el := by
  have hlen : (convert_field_element_to_bit_vector C el).length = C.size_in_bits := by
    simp [convert_field_element_to_bit_vector]
  refine ⟨by omega, ?_⟩
  rw [convert_bit_vector_to_field_element_eq C _ (by omega),
    convert_field_element_to_bit_vector_eq C el hlimbs, bits_to_nat_testBit_range,
    Nat.mod_eq_of_lt (lt_of_lt_of_le (ZMod.val_lt el) hsize), ZMod.natCast_zmod_val]

/-- C19, witness: over the field of modulus 7 the element 6 is decomposed into
`[0,1,1]` and reconstructed as 6. -/
theorem decompose_reconstruct_witness :
    F7_consts.size_in_bits ≤ F7_consts.num_bits ∧ 7 ≤ 2 ^ F7_consts.size_in_bits ∧
      7 ≤ 2 ^ (F7_consts.num_limbs * GMP_NUMB_BITS) ∧
      convert_bit_vector_to_field_element F7_consts
        (convert_field_element_to_bit_vector F7_consts 6) = some 6 :=
  ⟨by decide, by decide, by decide,
    (decompose_reconstruct F7_consts 6 (by decide) (by decide) (by decide)).2⟩

/-! ## Unpacking what was packed -/

/-- Bit `i` of a chunk sum is the bit packed at position `i`. -/
theorem testBit_sum_bits (f : Nat → Bool) (c i : Nat) (hi : i < c) :
    (Finset.sum (Finset.range c) (fun j => (f j).toNat * 2 ^ j)).testBit i = f i := by
  induction c with
  | zero => omega
  | succ c ih =>
    have hlt := sum_bits_lt (fun j => (f j).toNat) (fun j => bool_toNat_le_one _) c
    rw [Finset.sum_range_succ, Nat.add_comm, Nat.mul_comm,
      Nat.testBit_mul_pow_two_add _ hlt]
    by_cases hc : i < c
    · rw [if_pos hc, ih hc]
    · have : i = c := by omega
      subst this
      rw [if_neg hc, Nat.sub_self]
      cases f i <;> rfl

/-- Consecutive chunks of `c` positions concatenate to the first `n * c`
positions. -/
theorem flatten_chunks {α : Type} (h : Nat → α) (c n : Nat) :
    ((List.range n).map (fun k => (List.range c).map (fun j => h (k * c + j)))).flatten
      = (List.range (n * c)).map h := by
  induction n with
  | zero => simp
  | succ n ih =>
    rw [List.range_succ, List.map_append, List.flatten_append, ih, Nat.succ_mul,
      List.range_add, List.map_append]
    simp [List.map_map, Function.comp_def]

/-- Reading a sequence at the positions below `m`, beyond its end as zero, gives
the sequence followed by zero bits. -/
theorem map_getD_range (b : bit_vector) (m : Nat) (hm : b.length ≤ m) :
    (List.range m).map (fun q => b.getD q false) = b ++ List.replicate (m - b.length) false := by
  apply List.ext_getElem
  · simp; omega
  · intro i h1 h2
    simp only [List.getElem_map, List.getElem_range, List.getD_eq_getElem?_getD]
    by_cases hi : i < b.length
    · rw [List.getElem?_eq_getElem hi, List.getElem_append_left hi]
      rfl
    · rw [List.getElem?_eq_none (by omega), List.getElem_append_right (by omega)]
      simp


/-- The ceiling of `x / y` is the least multiple count covering `x`. -/
theorem ceil_mul_bounds (x y : Nat) (hy : 1 ≤ y) :
    x ≤ ⌈(x : ℚ) / (y : ℚ)⌉₊ * y ∧ ⌈(x : ℚ) / (y : ℚ)⌉₊ * y < x + y := by
  have h := div_ceil_eq_ceil x y hy
  unfold div_ceil at h
  rw [if_neg (by omega)] at h
  injection h with h
  rw [← h]
  have h1 := Nat.div_add_mod (x + (y - 1)) y
  have h2 := Nat.mod_lt (x + (y - 1)) (show y > 0 by omega)
  rw [Nat.mul_comm] at h1
  constructor <;> omega

/-- Unpacking one packed chunk: the first `c` bits of the decomposition of the
element packed from the chunk `k` are the bits of that chunk. -/
theorem unpack_chunk {p : Nat} (C : FieldT_consts (ZMod p)) (b : bit_vector) (c k : Nat)
    (hc2 : c ≤ C.num_bits - 1) (hmod : 2 ^ (C.num_bits - 1) ≤ p)
    (hlimbs : C.num_bits ≤ C.num_limbs * GMP_NUMB_BITS) (hsize : C.num_bits ≤ C.size_in_bits) :
    convert_field_element_to_bit_vector_count C
        ((Finset.sum (Finset.range c)
          (fun j => (b.getD (k * c + j) false).toNat * 2 ^ j) : ℕ) : ZMod p) c
      = some ((List.range c).map (fun j => b.getD (k * c + j) false)) := by
  have hlt : Finset.sum (Finset.range c) (fun j => (b.getD (k * c + j) false).toNat * 2 ^ j) < p :=
    lt_of_lt_of_le (sum_bits_lt _ (fun j => bool_toNat_le_one _) c)
      (le_trans (Nat.pow_le_pow_right (by decide) hc2) hmod)
  unfold convert_field_element_to_bit_vector_count convert_field_element_to_bit_vector as_bigint
  simp only [List.length_map, List.length_range, ZMod.val_natCast_of_lt hlt]
  rw [if_pos (by omega)]
  congr 1
  apply List.ext_getElem
  · simp; omega
  · intro i h1 h2
    have hi : i < c := by simpa using h2
    simp only [List.getElem_take, List.getElem_map, List.getElem_range,
      bigint.test_bit_of_nat]
    rw [testBit_sum_bits (fun j => b.getD (k * c + j) false) c i hi]
    have : i < C.num_limbs * GMP_NUMB_BITS := by omega
    simp [this]

/-- C18: for every bit sequence `b` and every `1 ≤ chunk_bits ≤ num_bits - 1`,
`num_bits` being the bit length of the modulus, unpacking undoes packing: each
element `e` of `pack_bit_vector_into_field_element_vector(b, chunk_bits)` has a
decomposition `convert_field_element_to_bit_vector(e, chunk_bits)`, and these
concatenate, in order, to `b` followed only by zero bits, up to the next multiple
of `chunk_bits`. -/
theorem unpack_pack {p : Nat} (C : FieldT_consts (ZMod p)) (b : bit_vector) (c : Nat)
    (hc1 : 1 ≤ c) (hc2 : c ≤ C.num_bits - 1) (hmod : 2 ^ (C.num_bits - 1) ≤ p)
    (hlimbs : C.num_bits ≤ C.num_limbs * GMP_NUMB_BITS) (hsize : C.num_bits ≤ C.size_in_bits) :
    ∃ (elems : List (ZMod p)) (chunks : List bit_vector),
      pack_bit_vector_into_field_element_vector C b c = some elems ∧
      elems.map (fun e => convert_field_element_to_bit_vector_count C e c)
        = chunks.map some ∧
      chunks.flatten = b ++ List.replicate (elems.length * c - b.length) false ∧
      b.length ≤ elems.length * c ∧ elems.length * c < b.length + c := by
  obtain ⟨hN1, hN2⟩ := ceil_mul_bounds b.length c hc1
  refine ⟨_, (List.range ⌈(b.length : ℚ) / (c : ℚ)⌉₊).map
      (fun k => (List.range c).map (fun j => b.getD (k * c + j) false)),
    pack_bit_vector_eq C b c hc1 hc2 hlimbs, ?_, ?_, ?_, ?_⟩
  · rw [List.map_map, List.map_map]
    apply List.map_congr_left
    intro k _
    exact unpack_chunk C b c k hc2 hmod hlimbs hsize
  · rw [flatten_chunks (fun q => b.getD q false) c, map_getD_range b _ hN1]
    simp
  · simpa using hN1
  · simpa using hN2

/-- C18, witness: over the field of modulus 7 the bits `1,0,1,1,1` in chunks of 2
are packed into `[1,3,1]` and unpacked into `[1,0], [1,1], [1,0]`: the input
followed by one zero bit. -/
theorem unpack_pack_witness :
    pack_bit_vector_into_field_element_vector F7_consts [true, false, true, true, true] 2
        = some [1, 3, 1] ∧
      ([1, 3, 1] : List (ZMod 7)).map
          (fun e => convert_field_element_to_bit_vector_count F7_consts e 2)
        = [some [true, false], some [true, true], some [true, false]] ∧
      ∃ (elems : List (ZMod 7)) (chunks : List bit_vector),
        pack_bit_vector_into_field_element_vector F7_consts [true, false, true, true, true] 2
          = some elems ∧
        elems.map (fun e => convert_field_element_to_bit_vector_count F7_consts e 2)
          = chunks.map some ∧
        chunks.flatten = [true, false, true, true, true]
          ++ List.replicate (elems.length * 2 - 5) false := by
  refine ⟨by decide, by decide, ?_⟩
  obtain ⟨elems, chunks, h1, h2, h3, _, _⟩ :=
    unpack_pack F7_consts [true, false, true, true, true] 2 (by decide) (by decide) (by decide)
      (by decide) (by decide)
  exact ⟨elems, chunks, h1, h2, h3⟩

/-! ## Word packing as bit packing -/

/-- The flat bit sequence has `w` bits for each word. -/
theorem flat_bits_length (words : List Nat) (w : Nat) :
    (flat_bits words w).length = words.length * w := by
  induction words with
  | nil => simp [flat_bits]
  | cons word rest ih =>
    simp only [flat_bits, List.length_append, List.length_map, List.length_range, ih,
      List.length_cons, Nat.succ_mul]
    omega

/-- Position `i * w + j` of the flat bit sequence is bit `j` of word `i`. -/
theorem flat_bits_getD (words : List Nat) (w i j : Nat) (hi : i < words.length) (hj : j < w) :
    (flat_bits words w).getD (i * w + j) false = (words.getD i 0).testBit j := by
  induction words generalizing i with
  | nil => simp at hi
  | cons word rest ih =>
    rw [flat_bits, List.getD_eq_getElem?_getD]
    cases i with
    | zero =>
      rw [List.getElem?_append_left (by simp; omega)]
      simp [List.getElem?_range, hj]
    | succ i =>
      have hi2 : i < rest.length := by simpa using hi
      rw [List.getElem?_append_right (by simp [Nat.succ_mul]; omega)]
      have e : (i + 1) * w + j - ((List.range w).map (fun j => word.testBit j)).length
          = i * w + j := by
        simp [Nat.succ_mul]; omega
      rw [e, ← List.getD_eq_getElem?_getD, ih i hi2]
      simp

/-- C20: for every word sequence and every width `1 ≤ w ≤` machine word width,
`pack_int_vector_into_field_element_vector(words, w)` is
`pack_bit_vector_into_field_element_vector(flat)` with the default chunk size
`num_bits - 1`, where `flat`, of length `words.length * w`, concatenates word by
word the low `w` bits of each word, least significant first. -/
theorem pack_int_vector_eq_pack_bit_vector {p : Nat} (C : FieldT_consts (ZMod p))
    (words : List Nat) (w : Nat) (hw : 1 ≤ w) (_hword : w ≤ SIZE_T_BITS) :
    (flat_bits words w).length = words.length * w ∧
      pack_int_vector_into_field_element_vector C words w
        = pack_bit_vector_into_field_element_vector_default C (flat_bits words w) := by
  refine ⟨flat_bits_length words w, ?_⟩
  unfold pack_bit_vector_into_field_element_vector_default
    pack_bit_vector_into_field_element_vector pack_int_vector_into_field_element_vector
  rw [if_pos (le_refl _), flat_bits_length]
  have hbody : (fun i => (pack_int_vector_chunk C.num_limbs words w (C.num_bits - 1) i
        (C.num_bits - 1)).map (FieldT_of_bigint p))
      = (fun i => (pack_bit_vector_chunk C.num_limbs (flat_bits words w) (C.num_bits - 1) i
        (C.num_bits - 1)).map (FieldT_of_bigint p)) := by
    funext i
    rw [pack_bit_vector_chunk_eq,
      pack_int_vector_chunk_eq C.num_limbs words w hw
        (fun q => (flat_bits words w).getD q false)
        (fun a j ha hj => flat_bits_getD words w a j ha hj)
        (fun q hq => by
          show (flat_bits words w).getD q false = false
          rw [List.getD_eq_getElem?_getD,
            List.getElem?_eq_none (by rw [flat_bits_length]; exact hq)]
          rfl)]
  simp only [hbody]

/-- C20, witness: over the field of modulus 7 the words `[5, 6, 255]` at width 3
have the flat bits `1,0,1, 0,1,1, 1,1,1`, and both routines give `[1,1,3,3,1]`. -/
theorem pack_int_vector_eq_pack_bit_vector_witness :
    flat_bits [5, 6, 255] 3 = [true, false, true, false, true, true, true, true, true] ∧
      pack_bit_vector_into_field_element_vector_default F7_consts (flat_bits [5, 6, 255] 3)
        = some [1, 1, 3, 3, 1] ∧
      pack_int_vector_into_field_element_vector F7_consts [5, 6, 255] 3
        = pack_bit_vector_into_field_element_vector_default F7_consts
            (flat_bits [5, 6, 255] 3) :=
  ⟨by decide, by decide,
    (pack_int_vector_eq_pack_bit_vector F7_consts [5, 6, 255] 3 (by decide) (by decide)).2⟩

/-! ## Failure of the root-of-unity derivation -/

section root_failure
variable {F : Type} [Field F]

/-- Exact domain of `get_root_of_unity`: it returns a value exactly for the
powers of two `2^logn` with `logn` within the two-adicity and below the width
of `unsigned int`. -/
theorem get_root_of_unity_returns_iff (C : FieldT_consts F) (n : Nat) :
    (∃ w : F, get_root_of_unity C n = some w) ↔
      ∃ logn : Nat, n = 2 ^ logn ∧ logn ≤ C.s ∧ logn < UINT_BITS := by
  constructor
  · rintro ⟨w, hw⟩
    unfold get_root_of_unity at hw
    simp only [] at hw
    unfold shl_1u at hw
    by_cases h32 : log2 n < UINT_BITS
    · rw [if_pos h32] at hw
      simp only [] at hw
      by_cases hn : n ≠ (1 <<< log2 n) % 2 ^ UINT_BITS
      · rw [if_pos hn] at hw; cases hw
      · rw [if_neg hn] at hw
        by_cases hs : ¬ log2 n ≤ C.s
        · rw [if_pos hs] at hw; cases hw
        · refine ⟨log2 n, ?_, not_not.1 hs, h32⟩
          have := not_not.1 hn
          rw [Nat.shiftLeft_eq, Nat.one_mul,
            Nat.mod_eq_of_lt (Nat.pow_lt_pow_right (by decide) h32)] at this
          exact this
    · rw [if_neg h32] at hw
      cases hw
  · rintro ⟨logn, rfl, hs, h32⟩
    exact ⟨_, get_root_of_unity_eq C logn hs h32⟩

/-- An input that is not a power of two (0 included) fails. -/
theorem get_root_of_unity_not_two_pow (C : FieldT_consts F) (n : Nat) (h : ∀ k : Nat, n ≠ 2 ^ k) :
    get_root_of_unity C n = none := by
  cases hr : get_root_of_unity C n with
  | none => rfl
  | some w =>
    obtain ⟨logn, hn, _, _⟩ := (get_root_of_unity_returns_iff C n).1 ⟨w, hr⟩
    exact absurd hn (h logn)

/-- A power of two beyond the two-adicity fails. -/
theorem get_root_of_unity_beyond_adicity (C : FieldT_consts F) (logn : Nat) (h : C.s < logn) :
    get_root_of_unity C (2 ^ logn) = none := by
  cases hr : get_root_of_unity C (2 ^ logn) with
  | none => rfl
  | some w =>
    obtain ⟨k, hn, hk, _⟩ := (get_root_of_unity_returns_iff C (2 ^ logn)).1 ⟨w, hr⟩
    have : logn = k := Nat.pow_right_injective (le_refl 2) hn
    omega

end root_failure

/-- C16, at the inputs `n = 2^32` and `n = 2^36` in the prime field of modulus
`3 * 2^36 + 1` (two-adicity 36): both are powers of two `2^logn` with
`logn ≤ s`, and `get_root_of_unity` fails on both, because the assertion
compares `n` with the 32-bit shift `1u << logn`. -/
theorem get_root_of_unity_fails_within_adicity :
    (32 ≤ P36_consts.s ∧ get_root_of_unity P36_consts (2 ^ 32) = none) ∧
      (36 ≤ P36_consts.s ∧ get_root_of_unity P36_consts (2 ^ 36) = none) :=
  ⟨⟨by decide, get_root_of_unity_wide P36_consts 32 (by decide)⟩,
    ⟨by decide, get_root_of_unity_wide P36_consts 36 (by decide)⟩⟩

end libsnark
